import Mathlib

set_option maxRecDepth 10000
set_option maxHeartbeats 1000000

/-!
Verification of the 2-SAT solver (Papadimitriou's randomized algorithm) in
src/algorithms/part4/hw4/src/lib.rs.

The Rust code is shallowly embedded: the solver state is a record, machine
integers (usize, 64-bit) are Nat taken mod 2^64 where overflow matters, and
every operation that can panic in Rust (integer modulus by zero, out-of-range
Vec indexing, Option::unwrap) is modelled as an Option-returning function
where the value none stands for a panic.
-/

namespace TwoSat

/-! ### Generic list helpers

These model Vec::swap_remove and Iterator::position from the Rust standard
library, together with the counting lemmas the invariant proofs need.
-/

/-- Number of occurrences of a value in a list (explicit recursion, used for
the partition-pairing invariant). -/
def mcount [DecidableEq α] (c : α) : List α → Nat
  | [] => 0
  | d :: t => (if d = c then 1 else 0) + mcount c t

/-- Index of the first element satisfying a predicate, as in
Iterator::position: none when no element matches. -/
def listPos (p : α → Bool) : List α → Option Nat
  | [] => none
  | a :: t => if p a then some 0 else (listPos p t).map (· + 1)

/-- Vec::swap_remove i: overwrite position i with the last element and pop
the last element.  Only used at indices i < length. -/
def swapRemove [Inhabited α] (l : List α) (i : Nat) : List α :=
  (l.set i (l.getD (l.length - 1) default)).dropLast

/-! ### The pseudo-random source (struct RNG)

RNG::generate is the classic xorshift* transform on a 64-bit usize:
x ^= x << 13; x ^= x >> 7; x ^= x << 17; state := x;
return x.wrapping_mul(0x2545F4914F6CDD1D).
On 64-bit naturals, x << k is (x * 2^k) % 2^64, x >> k is x / 2^k, and xor
is computed digit by digit over the 64 binary digits.
-/

/-- Bitwise xor of the low k binary digits of two naturals. -/
def xorFuel : Nat → Nat → Nat → Nat
  | 0, _, _ => 0
  | k + 1, a, b => ((a + b) % 2) + 2 * xorFuel k (a / 2) (b / 2)

/-- 64-bit bitwise xor: for inputs below 2^64 this is exactly the xor of the
two usize values. -/
def xor64 (a b : Nat) : Nat := xorFuel 64 a b

/-- 2^64, the modulus of usize arithmetic. -/
def U64 : Nat := 2 ^ 64

/-- RNG::generate.  Returns (new state, produced value); the produced value
is the state after the three xorshifts, wrapping-multiplied by the odd
constant 0x2545F4914F6CDD1D = 2685821657736338717. -/
def generate (s : Nat) : Nat × Nat :=
  let x1 := xor64 s ((s * 8192) % U64)
  let x2 := xor64 x1 (x1 / 128)
  let x3 := xor64 x2 ((x2 * 131072) % U64)
  (x3, (x3 * 2685821657736338717) % U64)

/-! ### Clause model -/

/-- struct Clause: allow\[j\] is the polarity the j-th variable must have for
that literal to satisfy the clause; vars\[j\] are the two variable indices. -/
structure Clause where
  allow : Bool × Bool
  vars : Nat × Nat
deriving DecidableEq, Inhabited

/-- Clause::other_var: given one of the clause's variables, return the other
slot's variable: idx = (vars\[0\] == var) as usize; vars\[idx\]. -/
def Clause.other_var (c : Clause) (v : Nat) : Nat :=
  if c.vars.1 = v then c.vars.2 else c.vars.1

/-- struct Clauses: the clause store and the variable count. -/
structure Clauses where
  clauses : List Clause
  n_var : Nat
deriving DecidableEq, Inhabited

/-- struct TwoSATSolver.  The Rust solver borrows the clause store; here the
store (clauses, n_var) is inlined.  satisfied is the Vec<Vec<&Clause>> of
per-variable satisfied lists (indexed 0..=n_var), unsatisfied the single
unsatisfied list, assignment the per-variable truth values (indexed
0..=n_var), rng the RNG state. -/
structure TwoSATSolver where
  clauses : List Clause
  n_var : Nat
  satisfied : List (List Clause)
  unsatisfied : List Clause
  assignment : List Bool
  rng : Nat
deriving DecidableEq, Inhabited

/-- TwoSATSolver::new. -/
def TwoSATSolver.new (cl : Clauses) (seed : Nat) : TwoSATSolver :=
  { clauses := cl.clauses
    n_var := cl.n_var
    satisfied := List.replicate (cl.n_var + 1) []
    unsatisfied := []
    assignment := List.replicate (cl.n_var + 1) true
    rng := seed }

/-- The satisfied-list of variable v (self.satisfied.0\[v\]). -/
def satGet (sat : List (List Clause)) (v : Nat) : List Clause :=
  sat.getD v []

/-- TwoSATSolver::is_satisfied: the clause is satisfied iff at least one of
its two variables carries the polarity that slot allows (Rust uses
non-short-circuit |, same value as ||). -/
def is_satisfied (ass : List Bool) (c : Clause) : Bool :=
  (ass.getD c.vars.1 false == c.allow.1) || (ass.getD c.vars.2 false == c.allow.2)

/-- Satisfied::push_clause: append the clause to the satisfied-lists of both
its variables (twice to the same list when the variables coincide). -/
def push_clause (sat : List (List Clause)) (c : Clause) : List (List Clause) :=
  let s1 := sat.set c.vars.1 (satGet sat c.vars.1 ++ [c])
  s1.set c.vars.2 (satGet s1 c.vars.2 ++ [c])

/-- Satisfied::remove_clause_at: find the first copy of the clause in
variable v's satisfied-list and swap_remove it.  The Rust code unwraps the
position; none models that panic. -/
def remove_clause_at (sat : List (List Clause)) (c : Clause) (v : Nat) :
    Option (List (List Clause)) :=
  match listPos (fun oc => oc == c) (satGet sat v) with
  | none => none
  | some k => some (sat.set v (swapRemove (satGet sat v) k))

/-- Body of the partition loop: classify one clause against the current
assignment. -/
def part_step (st : TwoSATSolver) (c : Clause) : TwoSATSolver :=
  if is_satisfied st.assignment c then { st with satisfied := push_clause st.satisfied c }
  else { st with unsatisfied := st.unsatisfied ++ [c] }

/-- TwoSATSolver::partition: classify every clause of the store once against
the current assignment, appending to the satisfied-lists or the unsatisfied
list.  Nothing is cleared first. -/
def partition (s : TwoSATSolver) : TwoSATSolver :=
  s.clauses.foldl part_step s

/-- One random bool per entry of the assignment vector, threading the RNG in
iteration order (TwoSATSolver::randomize_assignment body). -/
def randomize_list (rng : Nat) : List Bool → List Bool × Nat
  | [] => ([], rng)
  | _ :: rest =>
    (((generate rng).2 % 2 == 1) :: (randomize_list (generate rng).1 rest).1,
      (randomize_list (generate rng).1 rest).2)

/-- TwoSATSolver::randomize_assignment. -/
def randomize_assignment (s : TwoSATSolver) : TwoSATSolver :=
  { s with assignment := (randomize_list s.rng s.assignment).1
           rng := (randomize_list s.rng s.assignment).2 }

/-- TwoSATSolver::flip_random_var: draw a random unsatisfied clause
(random_unsatisfied_idx, whose % panics when the unsatisfied list is empty),
draw one of its two variables, and flip that variable's assignment (an
out-of-range variable index would panic).  Returns the flipped variable and
the new state. -/
def flip_var_of (s : TwoSATSolver) : Nat :=
  if (generate (generate s.rng).1).2 % 2 == 1 then
    (s.unsatisfied.getD ((generate s.rng).2 % s.unsatisfied.length) default).vars.2
  else
    (s.unsatisfied.getD ((generate s.rng).2 % s.unsatisfied.length) default).vars.1

def flip_random_var (s : TwoSATSolver) : Option (Nat × TwoSATSolver) :=
  if s.unsatisfied.length = 0 then none
  else
    if flip_var_of s < s.assignment.length then
      some (flip_var_of s,
        { s with assignment := s.assignment.set (flip_var_of s)
                   (!(s.assignment.getD (flip_var_of s) false))
                 rng := (generate (generate s.rng).1).1 })
    else none

/-- First repair loop of TwoSATSolver::random_repartition: walk variable v's
satisfied-list with an explicit cursor i for n iterations (n the list length
at entry); a clause found unsatisfied is swap_removed here, removed from its
other variable's list, and pushed onto the unsatisfied list.  Indexing the
list at a position past its end (possible when a clause mentions v twice, so
one removal shrinks the list by two) is a panic, modelled as none. -/
def scan1 (ass : List Bool) (v : Nat) :
    Nat → Nat → List (List Clause) → List Clause →
    Option (List (List Clause) × List Clause)
  | 0, _, sat, uns => some (sat, uns)
  | fuel + 1, i, sat, uns =>
    if i < (satGet sat v).length then
      if is_satisfied ass ((satGet sat v).getD i default) then scan1 ass v fuel (i + 1) sat uns
      else
        match remove_clause_at (sat.set v (swapRemove (satGet sat v) i))
            ((satGet sat v).getD i default)
            (((satGet sat v).getD i default).other_var v) with
        | none => none
        | some sat2 => scan1 ass v fuel i sat2 (uns ++ [(satGet sat v).getD i default])
    else none

/-- Second repair loop of TwoSATSolver::random_repartition: walk the first m
positions of the unsatisfied list downwards (m its length before the first
loop); the counter argument is i+1 for current index i; the loop breaks when
the index reaches past the current length; a clause found satisfied is
swap_removed and pushed onto both its satisfied-lists. -/
def scan2 (ass : List Bool) : Nat → List (List Clause) → List Clause →
    List (List Clause) × List Clause
  | 0, sat, uns => (sat, uns)
  | j + 1, sat, uns =>
    if uns.length ≤ j then (sat, uns)
    else
      if is_satisfied ass (uns.getD j default) then
        scan2 ass j (push_clause sat (uns.getD j default)) (swapRemove uns j)
      else scan2 ass j sat uns

/-- The two repair loops of random_repartition, run after the flip: n and m
are the lengths captured at lines 163-164 of the source. -/
def repair_scans (s : TwoSATSolver) (v : Nat) : Option TwoSATSolver :=
  match scan1 s.assignment v (satGet s.satisfied v).length 0 s.satisfied s.unsatisfied with
  | none => none
  | some (sat1, uns1) =>
    some { s with satisfied := (scan2 s.assignment s.unsatisfied.length sat1 uns1).1
                  unsatisfied := (scan2 s.assignment s.unsatisfied.length sat1 uns1).2 }

/-- TwoSATSolver::random_repartition: flip a random variable of a random
unsatisfied clause, then repair the partition with the two scans.  Also
returns the flipped variable (Rust keeps it in a local). -/
def random_repartition (s : TwoSATSolver) : Option (Nat × TwoSATSolver) :=
  match flip_random_var s with
  | none => none
  | some (v, s1) =>
    match repair_scans s1 v with
    | none => none
    | some s2 => some (v, s2)

/-- The inner random-walk loop of TwoSATSolver::try_solve: up to fuel
repartition steps, returning success as soon as the unsatisfied list is
empty (the dbg! call in the source is output-only and has no effect on the
state). -/
def try_solve_walk : Nat → TwoSATSolver → Option (Bool × TwoSATSolver)
  | 0, s => some (false, s)
  | fuel + 1, s =>
    match random_repartition s with
    | none => none
    | some (_, s1) =>
      if s1.unsatisfied.length = 0 then some (true, s1)
      else try_solve_walk fuel s1

/-- TwoSATSolver::try_solve: randomize the assignment, partition (on top of
whatever the lists already contain), succeed immediately if nothing is
unsatisfied, otherwise walk for 2 * n_var steps. -/
def try_solve (s : TwoSATSolver) : Option (Bool × TwoSATSolver) :=
  if (partition (randomize_assignment s)).unsatisfied.length = 0 then
    some (true, partition (randomize_assignment s))
  else
    try_solve_walk (2 * (partition (randomize_assignment s)).n_var)
      (partition (randomize_assignment s))

/-- The restart loop of Clauses::is_satisfiable: up to n_iter calls of
try_solve on the same solver value, returning true on the first success. -/
def solve_loop : Nat → TwoSATSolver → Option Bool
  | 0, _ => some false
  | n + 1, s =>
    match try_solve s with
    | none => none
    | some (true, _) => some true
    | some (false, s1) => solve_loop n s1

/-- Clauses::is_satisfiable: build one solver with seed 42 and run up to
n_iter restarts.  none models a panic during the run. -/
def Clauses.is_satisfiable (cl : Clauses) (n_iter : Nat) : Option Bool :=
  solve_loop n_iter (TwoSATSolver.new cl 42)

/-! ### Trace-instrumented run (for the determinism claim)

The same computation, additionally recording, restart by restart, the
sequence of flipped variables.  is_satisfiable is proved to be the second
projection of this run, so the verdict and the full restart/flip event
sequence are one deterministic function of the clause list and the budget.
-/

/-- try_solve_walk, also returning the flipped variables in order. -/
def walk_trace : Nat → TwoSATSolver → Option (List Nat × Bool × TwoSATSolver)
  | 0, s => some ([], false, s)
  | fuel + 1, s =>
    match random_repartition s with
    | none => none
    | some (v, s1) =>
      if s1.unsatisfied.length = 0 then some ([v], true, s1)
      else (walk_trace fuel s1).map (fun r => (v :: r.1, r.2))

/-- try_solve, also returning this restart's flip sequence. -/
def try_solve_trace (s : TwoSATSolver) : Option (List Nat × Bool × TwoSATSolver) :=
  if (partition (randomize_assignment s)).unsatisfied.length = 0 then
    some ([], true, partition (randomize_assignment s))
  else
    walk_trace (2 * (partition (randomize_assignment s)).n_var)
      (partition (randomize_assignment s))

/-- solve_loop, also returning the per-restart flip sequences. -/
def solve_loop_trace : Nat → TwoSATSolver → Option (List (List Nat) × Bool)
  | 0, _ => some ([], false)
  | n + 1, s =>
    match try_solve_trace s with
    | none => none
    | some (vs, true, _) => some ([vs], true)
    | some (vs, false, s1) => (solve_loop_trace n s1).map (fun r => (vs :: r.1, r.2))

/-- The full instrumented run of is_satisfiable: the list of flip sequences
of the successive restarts, and the final verdict. -/
def run_trace (cl : Clauses) (n_iter : Nat) : Option (List (List Nat) × Bool) :=
  solve_loop_trace n_iter (TwoSATSolver.new cl 42)

/-! ### The concrete instances from the tests and the spec -/

/-- The satisfiable regression instance "2\n1 2\n1 -2\n-1 2\n" of test1. -/
def satCl : Clauses :=
  { clauses := [⟨(true, true), (1, 2)⟩, ⟨(true, false), (1, 2)⟩, ⟨(false, true), (1, 2)⟩]
    n_var := 2 }

/-- The unsatisfiable instance "2\n1 2\n1 -2\n-1 2\n-1 -2\n" of test2. -/
def unsatCl : Clauses :=
  { clauses := [⟨(true, true), (1, 2)⟩, ⟨(true, false), (1, 2)⟩,
                ⟨(false, true), (1, 2)⟩, ⟨(false, false), (1, 2)⟩]
    n_var := 2 }

/-- The single tautological clause (x1 ∨ ¬x1), i.e. input "1\n1 -1\n". -/
def tautCl : Clauses :=
  { clauses := [⟨(true, false), (1, 1)⟩], n_var := 1 }

/-- Two same-variable clauses (x1 ∨ x1) and (¬x1 ∨ ¬x1), i.e. input
"1\n1 1\n-1 -1\n"; every variable index lies in 1..=n_var. -/
def panicCl : Clauses :=
  { clauses := [⟨(true, true), (1, 1)⟩, ⟨(false, false), (1, 1)⟩], n_var := 1 }

/-! ### Helper lemmas about the list operations -/

theorem mcount_append [DecidableEq α] (c : α) (l1 l2 : List α) :
    mcount c (l1 ++ l2) = mcount c l1 + mcount c l2 := by
  induction l1 with
  | nil => simp [mcount]
  | cons a t ih => simp [mcount, ih]; omega

theorem mcount_pos_iff_mem [DecidableEq α] (c : α) (l : List α) :
    0 < mcount c l ↔ c ∈ l := by
  induction l with
  | nil => simp [mcount]
  | cons a t ih =>
    by_cases h : a = c
    · subst h; simp [mcount]
    · simp [mcount, h, ih, Ne.symm h]

theorem getD_mem (l : List α) (n : Nat) (d : α) (h : n < l.length) : l.getD n d ∈ l := by
  induction l generalizing n with
  | nil => simp at h
  | cons a t ih =>
    cases n with
    | zero => simp
    | succ m =>
      simp only [List.getD_cons_succ]
      exact List.mem_cons_of_mem a (ih m (by simpa using h))

theorem mem_exists_getD (l : List α) (c : α) (d : α) (h : c ∈ l) :
    ∃ j, j < l.length ∧ l.getD j d = c := by
  induction l with
  | nil => simp at h
  | cons a t ih =>
    rcases List.mem_cons.mp h with h1 | h2
    · exact ⟨0, by simp, by simpa using h1.symm⟩
    · obtain ⟨j, hj, hval⟩ := ih h2
      exact ⟨j + 1, by simpa using hj, by simpa using hval⟩

theorem getD_set_self (l : List α) (i : Nat) (x d : α) (h : i < l.length) :
    (l.set i x).getD i d = x := by
  induction l generalizing i with
  | nil => simp at h
  | cons a t ih =>
    cases i with
    | zero => simp
    | succ m => simpa using ih m (by simpa using h)

theorem getD_set_ne (l : List α) (i j : Nat) (x d : α) (h : i ≠ j) :
    (l.set i x).getD j d = l.getD j d := by
  induction l generalizing i j with
  | nil => simp
  | cons a t ih =>
    cases i with
    | zero =>
      cases j with
      | zero => exact absurd rfl h
      | succ m => simp
    | succ n =>
      cases j with
      | zero => simp
      | succ m => simpa using ih n m (by omega)

theorem getD_dropLast (l : List α) (j : Nat) (d : α) (h : j < l.length - 1) :
    l.dropLast.getD j d = l.getD j d := by
  induction l generalizing j with
  | nil => simp
  | cons a t ih =>
    cases t with
    | nil => simp at h
    | cons b t2 =>
      cases j with
      | zero => simp [List.dropLast]
      | succ m =>
        simp only [List.dropLast, List.getD_cons_succ]
        exact ih m (by simp at h ⊢; omega)

theorem length_swapRemove [Inhabited α] (l : List α) (i : Nat) (h : i < l.length) :
    (swapRemove l i).length = l.length - 1 := by
  simp [swapRemove]

theorem swapRemove_cons_succ [Inhabited α] (a : α) (l : List α) (i : Nat)
    (h : i < l.length) : swapRemove (a :: l) (i + 1) = a :: swapRemove l i := by
  have hne : l ≠ [] := by cases l <;> simp_all
  unfold swapRemove
  have hlen : (a :: l).length - 1 = (l.length - 1) + 1 := by
    simp; omega
  rw [hlen]
  simp only [List.getD_cons_succ, List.set_cons_succ]
  have : l.set i (l.getD (l.length - 1) default) ≠ [] := by
    cases l with
    | nil => simp_all
    | cons b t => cases i <;> simp
  cases hset : l.set i (l.getD (l.length - 1) default) with
  | nil => exact absurd hset this
  | cons x xs => simp [List.dropLast]

theorem mcount_swapRemove [DecidableEq α] [Inhabited α] (l : List α) (i : Nat) (c : α)
    (h : i < l.length) :
    mcount c (swapRemove l i) + (if l.getD i default = c then 1 else 0) = mcount c l := by
  induction l generalizing i with
  | nil => simp at h
  | cons a t ih =>
    cases i with
    | zero =>
      cases t with
      | nil => simp [swapRemove, mcount]
      | cons b t2 =>
        have hlast : (a :: b :: t2).getD ((a :: b :: t2).length - 1) default =
            (b :: t2).getLast (by simp) := by
          have h1 : (a :: b :: t2).length - 1 = (b :: t2).length := by simp
          rw [h1]
          have h2 : (b :: t2).length = ((b :: t2).length - 1) + 1 := by simp
          rw [h2, List.getD_cons_succ]
          rw [List.getLast_eq_get]
          exact List.getD_eq_get _ _ _
        have hsplit : (b :: t2) = (b :: t2).dropLast ++ [(b :: t2).getLast (by simp)] :=
          (List.dropLast_append_getLast (by simp)).symm
        unfold swapRemove
        rw [hlast]
        simp only [List.set_cons_zero, List.getD_cons_zero]
        have hd : ((b :: t2).getLast (by simp) :: b :: t2).dropLast =
            (b :: t2).getLast (by simp) :: (b :: t2).dropLast := by
          simp [List.dropLast]
        rw [hd]
        conv_rhs => rw [mcount]; rw [show mcount c (b :: t2) =
          mcount c ((b :: t2).dropLast ++ [(b :: t2).getLast (by simp)]) from by rw [← hsplit]]
        rw [mcount_append]
        simp [mcount]
        omega
    | succ m =>
      have hm : m < t.length := by simpa using h
      rw [swapRemove_cons_succ a t m hm]
      simp only [mcount, List.getD_cons_succ]
      have := ih m hm
      omega

theorem mem_swapRemove [DecidableEq α] [Inhabited α] (l : List α) (i : Nat) (c : α)
    (h : i < l.length) (hmem : c ∈ swapRemove l i) : c ∈ l := by
  have h1 := mcount_swapRemove l i c h
  have h2 := (mcount_pos_iff_mem c (swapRemove l i)).mpr hmem
  exact (mcount_pos_iff_mem c l).mp (by omega)

theorem mem_swapRemove_of_ne [DecidableEq α] [Inhabited α] (l : List α) (i : Nat) (c : α)
    (h : i < l.length) (hne : l.getD i default ≠ c) (hmem : c ∈ l) : c ∈ swapRemove l i := by
  have h1 := mcount_swapRemove l i c h
  have h2 := (mcount_pos_iff_mem c l).mpr hmem
  rw [if_neg hne] at h1
  exact (mcount_pos_iff_mem c (swapRemove l i)).mp (by omega)

theorem getD_swapRemove_lt [Inhabited α] (l : List α) (i j : Nat) (d : α)
    (h : i < l.length) (hj : j < i) : (swapRemove l i).getD j d = l.getD j d := by
  unfold swapRemove
  rw [getD_dropLast _ _ _ (by simp; omega)]
  exact getD_set_ne _ _ _ _ _ (by omega)

theorem listPos_some [Inhabited α] (p : α → Bool) (l : List α) (k : Nat)
    (h : listPos p l = some k) : k < l.length ∧ p (l.getD k default) = true := by
  induction l generalizing k with
  | nil => simp [listPos] at h
  | cons a t ih =>
    by_cases hp : p a
    · simp [listPos, hp] at h
      subst h
      simpa using hp
    · simp [listPos, hp] at h
      obtain ⟨m, hm, hk⟩ := h
      obtain ⟨h1, h2⟩ := ih m hm
      subst hk
      exact ⟨by simpa using h1, by simpa using h2⟩

theorem listPos_isSome (p : α → Bool) (l : List α) (c : α) (hc : c ∈ l)
    (hp : p c = true) : (listPos p l).isSome := by
  induction l with
  | nil => simp at hc
  | cons a t ih =>
    by_cases hpa : p a
    · simp [listPos, hpa]
    · rcases List.mem_cons.mp hc with h1 | h2
      · subst h1; exact absurd hp (by simpa using hpa)
      · simp only [listPos, if_neg hpa]
        have := ih h2
        cases hlp : listPos p t with
        | none => rw [hlp] at this; simp at this
        | some k => simp

theorem satGet_set_self (sat : List (List Clause)) (v : Nat) (x : List Clause)
    (h : v < sat.length) : satGet (sat.set v x) v = x :=
  getD_set_self sat v x [] h

theorem satGet_set_ne (sat : List (List Clause)) (v u : Nat) (x : List Clause)
    (h : v ≠ u) : satGet (sat.set v x) u = satGet sat u :=
  getD_set_ne sat v u x [] h

theorem satGet_replicate (n : Nat) (v : Nat) :
    satGet (List.replicate n ([] : List Clause)) v = [] := by
  induction n generalizing v with
  | zero => simp [satGet]
  | succ m ih =>
    cases v with
    | zero => simp [satGet, List.replicate]
    | succ w => simpa [satGet, List.replicate] using ih w

/-! ### Structural invariants of the satisfaction partition -/

/-- Well-formed clause store over variables indexed below N (the solver
allocates N = n_var + 1 slots, so variables 1..=n_var are in range). -/
abbrev StoreWF (CS : List Clause) (N : Nat) : Prop :=
  ∀ c ∈ CS, c.vars.1 < N ∧ c.vars.2 < N

/-- Every clause of the store has two distinct variables (the data-model
assumption of §3 of the spec). -/
abbrev StoreDistinct (CS : List Clause) : Prop :=
  ∀ c ∈ CS, c.vars.1 ≠ c.vars.2

/-- Structural invariant of the pair (satisfied lists, unsatisfied list):
there are N satisfied-lists; each entry of variable u's satisfied-list is a
store clause mentioning u; each unsatisfied entry is a store clause; and
every clause value has as many copies in the satisfied-list of its first
variable as in that of its second (copies are inserted and removed in
pairs). -/
structure SatInv (CS : List Clause) (N : Nat) (sat : List (List Clause))
    (uns : List Clause) : Prop where
  sat_len : sat.length = N
  sat_mem : ∀ u, ∀ c ∈ satGet sat u, c ∈ CS ∧ (c.vars.1 = u ∨ c.vars.2 = u)
  uns_mem : ∀ c ∈ uns, c ∈ CS
  pairing : ∀ c ∈ CS, mcount c (satGet sat c.vars.1) = mcount c (satGet sat c.vars.2)

theorem satGet_out (sat : List (List Clause)) (v : Nat) (h : sat.length ≤ v) :
    satGet sat v = [] := by
  induction sat generalizing v with
  | nil => simp [satGet]
  | cons a t ih =>
    cases v with
    | zero => simp at h
    | succ w => simpa [satGet] using ih w (by simpa using h)

theorem lt_length_of_satGet_ne_nil (sat : List (List Clause)) (v : Nat)
    (h : satGet sat v ≠ []) : v < sat.length := by
  by_contra hge
  exact h (satGet_out sat v (by omega))

/-- Count of a value in the list stored at slot u after overwriting slot a. -/
theorem mcount_set (sat : List (List Clause)) (a : Nat) (x : List Clause) (u : Nat)
    (d : Clause) (ha : a < sat.length) :
    mcount d (satGet (sat.set a x) u) =
      if a = u then mcount d x else mcount d (satGet sat u) := by
  by_cases h : a = u
  · subst h; rw [satGet_set_self _ _ _ ha, if_pos rfl]
  · rw [satGet_set_ne _ _ _ _ h, if_neg h]

theorem mcount_singleton (c d : Clause) : mcount d [c] = if c = d then 1 else 0 := by
  simp [mcount]

/-- Count bookkeeping for push_clause: pushing c appends one copy of c to
the satisfied-list of each of its variable slots (two copies to the same
list when the variables coincide) and changes nothing else. -/
theorem mcount_push (sat : List (List Clause)) (c : Clause) (u : Nat) (d : Clause)
    (h1 : c.vars.1 < sat.length) (h2 : c.vars.2 < sat.length) :
    mcount d (satGet (push_clause sat c) u) =
      mcount d (satGet sat u) +
        (if c = d then
          (if c.vars.1 = u then 1 else 0) + (if c.vars.2 = u then 1 else 0)
        else 0) := by
  unfold push_clause
  have hs1len : (sat.set c.vars.1 (satGet sat c.vars.1 ++ [c])).length = sat.length := by
    simp
  rw [mcount_set _ _ _ _ _ (by omega)]
  by_cases h2u : c.vars.2 = u
  · rw [if_pos h2u, mcount_append, mcount_set _ _ _ _ _ h1, mcount_singleton]
    by_cases h12 : c.vars.1 = c.vars.2
    · have h1u : c.vars.1 = u := h12.trans h2u
      rw [if_pos h12, mcount_append, mcount_singleton]
      simp only [if_pos h1u, if_pos h2u]
      rw [h1u]
      split_ifs <;> omega
    · have h1u : ¬ c.vars.1 = u := fun hx => h12 (hx.trans h2u.symm)
      rw [if_neg h12]
      simp only [if_neg h1u, if_pos h2u]
      rw [h2u] <;> split_ifs <;> omega
  · rw [if_neg h2u, mcount_set _ _ _ _ _ h1]
    by_cases h1u : c.vars.1 = u
    · rw [if_pos h1u, mcount_append, mcount_singleton]
      simp only [if_pos h1u, if_neg h2u]
      rw [h1u] <;> split_ifs <;> omega
    · rw [if_neg h1u]
      simp only [if_neg h1u, if_neg h2u]
      split_ifs <;> omega

theorem push_mem_mono (sat : List (List Clause)) (c : Clause) (u : Nat) (d : Clause)
    (h1 : c.vars.1 < sat.length) (h2 : c.vars.2 < sat.length)
    (h : d ∈ satGet sat u) : d ∈ satGet (push_clause sat c) u := by
  have hcnt := mcount_push sat c u d h1 h2
  have hp := (mcount_pos_iff_mem d (satGet sat u)).mpr h
  exact (mcount_pos_iff_mem d _).mp (by omega)

theorem push_mem_self (sat : List (List Clause)) (c : Clause)
    (h1 : c.vars.1 < sat.length) (h2 : c.vars.2 < sat.length) :
    c ∈ satGet (push_clause sat c) c.vars.1 ∧ c ∈ satGet (push_clause sat c) c.vars.2 := by
  constructor
  · apply (mcount_pos_iff_mem c _).mp
    rw [mcount_push sat c c.vars.1 c h1 h2]
    by_cases h : c.vars.2 = c.vars.1 <;> simp [h] <;> omega
  · apply (mcount_pos_iff_mem c _).mp
    rw [mcount_push sat c c.vars.2 c h1 h2]
    by_cases h : c.vars.1 = c.vars.2 <;> simp [h] <;> omega

theorem push_mem_inv (sat : List (List Clause)) (c : Clause) (u : Nat) (d : Clause)
    (h1 : c.vars.1 < sat.length) (h2 : c.vars.2 < sat.length)
    (h : d ∈ satGet (push_clause sat c) u) :
    d ∈ satGet sat u ∨ (d = c ∧ (c.vars.1 = u ∨ c.vars.2 = u)) := by
  have hcnt := mcount_push sat c u d h1 h2
  have hp := (mcount_pos_iff_mem d _).mpr h
  by_cases hcd : c = d
  · by_cases hv1 : c.vars.1 = u
    · exact Or.inr ⟨hcd.symm, Or.inl hv1⟩
    · by_cases hv2 : c.vars.2 = u
      · exact Or.inr ⟨hcd.symm, Or.inr hv2⟩
      · rw [hcnt] at hp
        simp only [if_neg hv1, if_neg hv2] at hp
        left
        apply (mcount_pos_iff_mem d _).mp
        split_ifs at hp <;> omega
  · rw [hcnt, if_neg hcd] at hp
    left
    exact (mcount_pos_iff_mem d _).mp (by omega)

/-- Characterization of a successful remove_clause_at: some position k of
variable v's list holds the clause value, and the result swap_removes that
position. -/
theorem rca_some (sat : List (List Clause)) (c : Clause) (v : Nat)
    (sat2 : List (List Clause)) (h : remove_clause_at sat c v = some sat2) :
    ∃ k, k < (satGet sat v).length ∧ (satGet sat v).getD k default = c ∧
      sat2 = sat.set v (swapRemove (satGet sat v) k) := by
  unfold remove_clause_at at h
  cases hlp : listPos (fun oc => oc == c) (satGet sat v) with
  | none => rw [hlp] at h; simp at h
  | some k =>
    rw [hlp] at h
    simp at h
    obtain ⟨hk, hval⟩ := listPos_some _ _ _ hlp
    exact ⟨k, hk, by simpa using hval, h.symm⟩

theorem rca_total (sat : List (List Clause)) (c : Clause) (v : Nat)
    (h : c ∈ satGet sat v) : (remove_clause_at sat c v).isSome := by
  unfold remove_clause_at
  have := listPos_isSome (fun oc => oc == c) (satGet sat v) c h (by simp)
  cases hlp : listPos (fun oc => oc == c) (satGet sat v) with
  | none => rw [hlp] at this; simp at this
  | some k => simp

/-- Effect of one removal step of the first repair scan: the clause c found
unsatisfied at cursor position i of variable v's satisfied-list is
swap_removed there and removed from its other variable's list, and pushed
onto the unsatisfied list.  This preserves the structural invariant, only
decreases counts, touches no other clause value, shrinks v's list by
exactly one when the other variable differs from v, and leaves the already
scanned prefix (positions below i) unchanged. -/
theorem removal_step
    (CS : List Clause) (N : Nat) (ass : List Bool) (v : Nat) (c : Clause)
    (sat sat2 : List (List Clause)) (uns : List Clause) (i : Nat)
    (hv : v < N) (hwf : StoreWF CS N)
    (hinv : SatInv CS N sat uns)
    (hi : i < (satGet sat v).length)
    (hc : (satGet sat v).getD i default = c)
    (hc_unsat : is_satisfied ass c = false)
    (hsat_lt : ∀ j, j < i → j < (satGet sat v).length →
      is_satisfied ass ((satGet sat v).getD j default) = true)
    (h_rca : remove_clause_at (sat.set v (swapRemove (satGet sat v) i)) c
      (c.other_var v) = some sat2) :
    SatInv CS N sat2 (uns ++ [c]) ∧
    (∀ u d, mcount d (satGet sat2 u) ≤ mcount d (satGet sat u)) ∧
    (∀ u d, d ≠ c → mcount d (satGet sat2 u) = mcount d (satGet sat u)) ∧
    (satGet sat2 v).length + 1 ≤ (satGet sat v).length ∧
    (c.other_var v ≠ v → (satGet sat2 v).length + 1 = (satGet sat v).length) ∧
    (∀ j, j < i → (satGet sat2 v).getD j default = (satGet sat v).getD j default) := by
  obtain ⟨hslen, hsmem, hunsmem, hpair⟩ := hinv
  have hcl : c ∈ satGet sat v := hc ▸ getD_mem _ i default hi
  have hcmem := hsmem v c hcl
  have hcCS : c ∈ CS := hcmem.1
  have hvars := hwf c hcCS
  have hvlen : v < sat.length := by omega
  have hA_v : satGet (sat.set v (swapRemove (satGet sat v) i)) v
      = swapRemove (satGet sat v) i := satGet_set_self _ _ _ hvlen
  have hA_ne : ∀ u, v ≠ u →
      satGet (sat.set v (swapRemove (satGet sat v) i)) u = satGet sat u :=
    fun u hu => satGet_set_ne _ _ _ _ hu
  obtain ⟨k, hk, hkval, hs2⟩ := rca_some _ _ _ _ h_rca
  have ho_lt : c.other_var v < N := by
    unfold Clause.other_var
    split_ifs <;> omega
  have hsalen : (sat.set v (swapRemove (satGet sat v) i)).length = sat.length := by simp
  have holen : c.other_var v < (sat.set v (swapRemove (satGet sat v) i)).length := by omega
  have hs2_o : satGet sat2 (c.other_var v) =
      swapRemove (satGet (sat.set v (swapRemove (satGet sat v) i)) (c.other_var v)) k := by
    rw [hs2]
    exact satGet_set_self _ _ _ holen
  have hs2_ne : ∀ u, c.other_var v ≠ u →
      satGet sat2 u = satGet (sat.set v (swapRemove (satGet sat v) i)) u := by
    intro u hu
    rw [hs2]
    exact satGet_set_ne _ _ _ _ hu
  have hstep1 : ∀ u d, mcount d (satGet (sat.set v (swapRemove (satGet sat v) i)) u)
      + (if v = u then (if c = d then 1 else 0) else 0) = mcount d (satGet sat u) := by
    intro u d
    by_cases huv : v = u
    · subst huv
      rw [hA_v, if_pos rfl]
      have hms := mcount_swapRemove (satGet sat v) i d hi
      rw [hc] at hms
      exact hms
    · rw [hA_ne u huv, if_neg huv]
      omega
  have hstep2 : ∀ u d, mcount d (satGet sat2 u)
      + (if c.other_var v = u then (if c = d then 1 else 0) else 0)
      = mcount d (satGet (sat.set v (swapRemove (satGet sat v) i)) u) := by
    intro u d
    by_cases huo : c.other_var v = u
    · subst huo
      rw [hs2_o, if_pos rfl]
      have hms := mcount_swapRemove _ k d hk
      rw [hkval] at hms
      exact hms
    · rw [hs2_ne u huo, if_neg huo]
      omega
  have hcount : ∀ u d, mcount d (satGet sat2 u)
      + ((if v = u then (if c = d then 1 else 0) else 0)
        + (if c.other_var v = u then (if c = d then 1 else 0) else 0))
      = mcount d (satGet sat u) := by
    intro u d
    have h1 := hstep1 u d
    have h2 := hstep2 u d
    omega
  refine ⟨⟨?_, ?_, ?_, ?_⟩, ?_, ?_, ?_, ?_, ?_⟩
  · rw [hs2]
    simpa using hslen
  · intro u d hd
    have hpos := (mcount_pos_iff_mem d _).mpr hd
    have hcu := hcount u d
    exact hsmem u d ((mcount_pos_iff_mem d _).mp (by omega))
  · intro d hd
    rcases List.mem_append.mp hd with h | h
    · exact hunsmem d h
    · simp at h
      subst h
      exact hcCS
  · intro e heCS
    have h1 := hcount e.vars.1 e
    have h2 := hcount e.vars.2 e
    have hold := hpair e heCS
    by_cases hce : c = e
    · subst hce
      by_cases h1v : c.vars.1 = v
      · have hov : c.other_var v = c.vars.2 := by
          unfold Clause.other_var
          rw [if_pos h1v]
        rw [hov] at h1 h2
        by_cases h12 : c.vars.1 = c.vars.2
        · rw [← h12] at h1 h2 ⊢ <;> omega
        · have hx1 : v = c.vars.1 := h1v.symm
          have hx2 : ¬ c.vars.2 = c.vars.1 := fun h => h12 h.symm
          simp [hx1, h12, hx2] at h1 h2
          omega
      · have h2v : c.vars.2 = v := by
          rcases hcmem.2 with h | h
          · exact absurd h h1v
          · exact h
        have hov : c.other_var v = c.vars.1 := by
          unfold Clause.other_var
          rw [if_neg h1v]
        rw [hov] at h1 h2
        have hx2 : v = c.vars.2 := h2v.symm
        have hx3 : ¬ c.vars.1 = c.vars.2 := fun h => h1v (h.trans h2v)
        have hx4 : ¬ c.vars.2 = c.vars.1 := fun h => hx3 h.symm
        simp [hx2, hx3, hx4] at h1 h2
        omega
    · simp only [if_neg hce, ite_self] at h1 h2
      omega
  · intro u d
    have hcu := hcount u d
    omega
  · intro u d hdc
    have hcu := hcount u d
    have hne : ¬ c = d := fun h => hdc h.symm
    simp only [if_neg hne, ite_self] at hcu
    omega
  · by_cases hov : c.other_var v = v
    · have hkk := hk
      rw [hov, hA_v] at hkk
      have e1 := hs2_o
      rw [hov, hA_v] at e1
      rw [e1, length_swapRemove _ _ hkk, length_swapRemove _ _ hi]
      omega
    · rw [hs2_ne v hov, hA_v, length_swapRemove _ _ hi]
      omega
  · intro hov
    rw [hs2_ne v hov, hA_v, length_swapRemove _ _ hi]
    omega
  · intro j hj
    by_cases hov : c.other_var v = v
    · have hki : i ≤ k := by
        by_contra hlt
        push_neg at hlt
        have hval := hkval
        rw [hov, hA_v] at hval
        rw [getD_swapRemove_lt _ _ _ _ hi hlt] at hval
        have hjs := hsat_lt k hlt (by omega)
        rw [hval, hc_unsat] at hjs
        simp at hjs
      have e1 := hs2_o
      rw [hov, hA_v] at e1
      have hkk := hk
      rw [hov, hA_v] at hkk
      rw [e1, getD_swapRemove_lt _ _ _ _ hkk (lt_of_lt_of_le hj hki)]
      exact getD_swapRemove_lt _ _ _ _ hi hj
    · rw [hs2_ne v hov, hA_v]
      exact getD_swapRemove_lt _ _ _ _ hi hj

/-- Specification of a successful first repair scan: the structural
invariant is preserved; every unsatisfied clause value that was in the
unsatisfied list or in variable v's satisfied-list ends up in the
unsatisfied list; satisfied clause values are never removed from any
satisfied-list; the unsatisfied list only grows. -/
theorem scan1_spec (CS : List Clause) (N : Nat) (ass : List Bool) (v : Nat)
    (hv : v < N) (hwf : StoreWF CS N) :
    ∀ fuel i sat uns sat1 uns1,
      scan1 ass v fuel i sat uns = some (sat1, uns1) →
      SatInv CS N sat uns →
      (satGet sat v).length ≤ i + fuel →
      (∀ j, j < i → j < (satGet sat v).length →
        is_satisfied ass ((satGet sat v).getD j default) = true) →
      SatInv CS N sat1 uns1 ∧
      (∀ d, is_satisfied ass d = false → (d ∈ uns ∨ d ∈ satGet sat v) → d ∈ uns1) ∧
      (∀ d, is_satisfied ass d = true → ∀ u, d ∈ satGet sat u → d ∈ satGet sat1 u) ∧
      (∀ d, d ∈ uns → d ∈ uns1) := by
  intro fuel
  induction fuel with
  | zero =>
    intro i sat uns sat1 uns1 hrun hinv hlen hsat
    simp only [scan1, Option.some.injEq, Prod.mk.injEq] at hrun
    obtain ⟨h1, h2⟩ := hrun
    subst h1
    subst h2
    refine ⟨hinv, ?_, fun d _ u h => h, fun d h => h⟩
    intro d hd hmem
    rcases hmem with h | h
    · exact h
    · obtain ⟨j, hj, hval⟩ := mem_exists_getD _ _ default h
      have hs := hsat j (by omega) hj
      rw [hval] at hs
      rw [hs] at hd
      simp at hd
  | succ fuel ih =>
    intro i sat uns sat1 uns1 hrun hinv hlen hsat
    simp only [scan1] at hrun
    by_cases hilen : i < (satGet sat v).length
    · rw [if_pos hilen] at hrun
      by_cases hsatc : is_satisfied ass ((satGet sat v).getD i default) = true
      · rw [if_pos hsatc] at hrun
        exact ih (i + 1) sat uns sat1 uns1 hrun hinv (by omega) (by
          intro j hj hjl
          rcases Nat.lt_succ_iff_lt_or_eq.mp hj with h | h
          · exact hsat j h hjl
          · subst h
            exact hsatc)
      · rw [if_neg hsatc] at hrun
        have hcunsat : is_satisfied ass ((satGet sat v).getD i default) = false := by
          simp only [Bool.not_eq_true] at hsatc
          exact hsatc
        cases hrca : remove_clause_at (sat.set v (swapRemove (satGet sat v) i))
            ((satGet sat v).getD i default)
            (((satGet sat v).getD i default).other_var v) with
        | none =>
          rw [hrca] at hrun
          simp at hrun
        | some sat2 =>
          rw [hrca] at hrun
          simp only [] at hrun
          have hrs := removal_step CS N ass v ((satGet sat v).getD i default) sat sat2 uns i
            hv hwf hinv hilen rfl hcunsat hsat hrca
          obtain ⟨hinv2, hmono, heqc, hlen2, hlen2eq, hpos⟩ := hrs
          have ihres := ih i sat2 (uns ++ [(satGet sat v).getD i default]) sat1 uns1 hrun
            hinv2 (by omega) (by
              intro j hj hjl
              rw [hpos j hj]
              exact hsat j hj (by omega))
          obtain ⟨ha, hb, hcc, hdd⟩ := ihres
          refine ⟨ha, ?_, ?_, ?_⟩
          · intro d hd hmem
            rcases hmem with hm | hm
            · exact hdd d (List.mem_append.mpr (Or.inl hm))
            · by_cases hdc : d = (satGet sat v).getD i default
              · exact hdd d (List.mem_append.mpr (Or.inr (by simp [hdc])))
              · have hmm : d ∈ satGet sat2 v := by
                  have hq := heqc v d hdc
                  have hp := (mcount_pos_iff_mem d _).mpr hm
                  exact (mcount_pos_iff_mem d _).mp (by omega)
                exact hb d hd (Or.inr hmm)
          · intro d hd u hmem
            have hdc : d ≠ (satGet sat v).getD i default := by
              intro h
              rw [h, hcunsat] at hd
              simp at hd
            have hmm : d ∈ satGet sat2 u := by
              have hq := heqc u d hdc
              have hp := (mcount_pos_iff_mem d _).mpr hmem
              exact (mcount_pos_iff_mem d _).mp (by omega)
            exact hcc d hd u hmm
          · intro d hd1
            exact hdd d (List.mem_append.mpr (Or.inl hd1))
    · rw [if_neg hilen] at hrun
      simp at hrun

/-- Totality of the first repair scan when every store clause has two
distinct variables: the cursor arithmetic i + fuel = current length is
maintained (each removal shrinks the list by exactly one while consuming
one unit of fuel), so the indexing never goes out of range, and the
pairing invariant guarantees that the unwrap inside remove_clause_at
always finds the clause in the other variable's list. -/
theorem scan1_total (CS : List Clause) (N : Nat) (ass : List Bool) (v : Nat)
    (hv : v < N) (hwf : StoreWF CS N) (hdist : StoreDistinct CS) :
    ∀ fuel i sat uns,
      SatInv CS N sat uns →
      i + fuel = (satGet sat v).length →
      (∀ j, j < i → j < (satGet sat v).length →
        is_satisfied ass ((satGet sat v).getD j default) = true) →
      (scan1 ass v fuel i sat uns).isSome := by
  intro fuel
  induction fuel with
  | zero =>
    intro i sat uns hinv hlen hsat
    simp [scan1]
  | succ fuel ih =>
    intro i sat uns hinv hlen hsat
    simp only [scan1]
    have hilen : i < (satGet sat v).length := by omega
    rw [if_pos hilen]
    by_cases hsatc : is_satisfied ass ((satGet sat v).getD i default) = true
    · rw [if_pos hsatc]
      exact ih (i + 1) sat uns hinv (by omega) (by
        intro j hj hjl
        rcases Nat.lt_succ_iff_lt_or_eq.mp hj with h | h
        · exact hsat j h hjl
        · subst h
          exact hsatc)
    · rw [if_neg hsatc]
      have hcunsat : is_satisfied ass ((satGet sat v).getD i default) = false := by
        simp only [Bool.not_eq_true] at hsatc
        exact hsatc
      have hcl : (satGet sat v).getD i default ∈ satGet sat v := getD_mem _ i default hilen
      have hcmem := hinv.sat_mem v _ hcl
      have hdij : ((satGet sat v).getD i default).vars.1 ≠
          ((satGet sat v).getD i default).vars.2 := hdist _ hcmem.1
      have hov_ne : ((satGet sat v).getD i default).other_var v ≠ v := by
        unfold Clause.other_var
        split_ifs with h
        · exact fun hh => hdij (h.trans hh.symm)
        · rcases hcmem.2 with h1 | h2
          · exact absurd h1 h
          · exact fun hh => hdij (hh.trans h2.symm)
      have hco : (satGet sat v).getD i default ∈
          satGet (sat.set v (swapRemove (satGet sat v) i))
            (((satGet sat v).getD i default).other_var v) := by
        rw [satGet_set_ne _ _ _ _ (fun hh => hov_ne hh.symm)]
        rcases hcmem.2 with h1 | h2
        · have hovv : ((satGet sat v).getD i default).other_var v
              = ((satGet sat v).getD i default).vars.2 := by
            unfold Clause.other_var
            rw [if_pos h1]
          rw [hovv]
          have hp := hinv.pairing _ hcmem.1
          have hcv : 0 < mcount ((satGet sat v).getD i default)
              (satGet sat (((satGet sat v).getD i default).vars.1)) := by
            rw [h1]
            exact (mcount_pos_iff_mem _ _).mpr hcl
          exact (mcount_pos_iff_mem _ _).mp (by omega)
        · have h1ne : ¬ ((satGet sat v).getD i default).vars.1 = v :=
            fun hh => hdij (hh.trans h2.symm)
          have hovv : ((satGet sat v).getD i default).other_var v
              = ((satGet sat v).getD i default).vars.1 := by
            unfold Clause.other_var
            rw [if_neg h1ne]
          rw [hovv]
          have hp := hinv.pairing _ hcmem.1
          have hcv : 0 < mcount ((satGet sat v).getD i default)
              (satGet sat (((satGet sat v).getD i default).vars.2)) := by
            rw [h2]
            exact (mcount_pos_iff_mem _ _).mpr hcl
          exact (mcount_pos_iff_mem _ _).mp (by omega)
      have hrt := rca_total _ _ _ hco
      cases hrca : remove_clause_at (sat.set v (swapRemove (satGet sat v) i))
          ((satGet sat v).getD i default)
          (((satGet sat v).getD i default).other_var v) with
      | none =>
        rw [hrca] at hrt
        simp at hrt
      | some sat2 =>
        have hrs := removal_step CS N ass v ((satGet sat v).getD i default) sat sat2 uns i
          hv hwf hinv hilen rfl hcunsat hsat hrca
        obtain ⟨hinv2, hmono, heqc, hlen2, hlen2eq, hpos⟩ := hrs
        have hlen2' := hlen2eq hov_ne
        exact ih i sat2 (uns ++ [(satGet sat v).getD i default]) hinv2 (by omega) (by
          intro j hj hjl
          rw [hpos j hj]
          exact hsat j hj (by omega))

/-- Specification of the second repair scan (a total function): the
structural invariant is preserved; unsatisfied clause values are never
removed from the unsatisfied list; a satisfied clause value that was in
both its satisfied-lists, or anywhere in the unsatisfied list, is, after
the scan, still in both its satisfied-lists or still in the unsatisfied
list. -/
theorem scan2_spec (CS : List Clause) (N : Nat) (ass : List Bool)
    (hwf : StoreWF CS N) :
    ∀ m sat uns,
      SatInv CS N sat uns →
      SatInv CS N (scan2 ass m sat uns).1 (scan2 ass m sat uns).2 ∧
      (∀ d, is_satisfied ass d = false → d ∈ uns → d ∈ (scan2 ass m sat uns).2) ∧
      (∀ d, is_satisfied ass d = true →
        ((d ∈ satGet sat d.vars.1 ∧ d ∈ satGet sat d.vars.2) ∨ d ∈ uns) →
        ((d ∈ satGet (scan2 ass m sat uns).1 d.vars.1 ∧
          d ∈ satGet (scan2 ass m sat uns).1 d.vars.2) ∨ d ∈ (scan2 ass m sat uns).2)) := by
  intro m
  induction m with
  | zero =>
    intro sat uns hinv
    exact ⟨hinv, fun d _ h => h, fun d _ h => h⟩
  | succ m ih =>
    intro sat uns hinv
    simp only [scan2]
    by_cases hbr : uns.length ≤ m
    · rw [if_pos hbr]
      exact ⟨hinv, fun d _ h => h, fun d _ h => h⟩
    · rw [if_neg hbr]
      push_neg at hbr
      have hcl : uns.getD m default ∈ uns := getD_mem _ m default hbr
      have hcCS : uns.getD m default ∈ CS := hinv.uns_mem _ hcl
      have hvars := hwf _ hcCS
      have hv1 : (uns.getD m default).vars.1 < sat.length := by
        have := hinv.sat_len
        omega
      have hv2 : (uns.getD m default).vars.2 < sat.length := by
        have := hinv.sat_len
        omega
      by_cases hsatc : is_satisfied ass (uns.getD m default) = true
      · rw [if_pos hsatc]
        have hinv2 : SatInv CS N (push_clause sat (uns.getD m default)) (swapRemove uns m) := by
          refine ⟨?_, ?_, ?_, ?_⟩
          · rw [show (push_clause sat (uns.getD m default)).length = sat.length from by
              simp [push_clause]]
            exact hinv.sat_len
          · intro u d hd
            rcases push_mem_inv sat _ u d hv1 hv2 hd with h | ⟨hdc, hu⟩
            · exact hinv.sat_mem u d h
            · subst hdc
              exact ⟨hcCS, hu⟩
          · intro d hd
            exact hinv.uns_mem d (mem_swapRemove _ _ _ hbr hd)
          · intro e heCS
            have h1 := mcount_push sat (uns.getD m default) e.vars.1 e hv1 hv2
            have h2 := mcount_push sat (uns.getD m default) e.vars.2 e hv1 hv2
            have hold := hinv.pairing e heCS
            by_cases hce : uns.getD m default = e
            · subst hce
              by_cases h12 : (uns.getD m default).vars.1 = (uns.getD m default).vars.2
              · rw [← h12] at h1 h2 ⊢ <;> omega
              · have hx2 : ¬ (uns.getD m default).vars.2 = (uns.getD m default).vars.1 :=
                  fun h => h12 h.symm
                rw [if_pos rfl, if_pos rfl, if_neg hx2] at h1
                rw [if_pos rfl, if_neg h12, if_pos rfl] at h2
                omega
            · simp only [if_neg hce] at h1 h2
              omega
        have ihres := ih (push_clause sat (uns.getD m default)) (swapRemove uns m) hinv2
        refine ⟨ihres.1, ?_, ?_⟩
        · intro d hd hdm
          have hdc : (uns.getD m default) ≠ d := by
            intro h
            rw [h, hd] at hsatc
            simp at hsatc
          exact ihres.2.1 d hd (mem_swapRemove_of_ne _ _ _ hbr hdc hdm)
        · intro d hd hmem
          rcases hmem with ⟨hm1, hm2⟩ | hm
          · exact ihres.2.2 d hd (Or.inl ⟨push_mem_mono sat _ _ d hv1 hv2 hm1,
              push_mem_mono sat _ _ d hv1 hv2 hm2⟩)
          · by_cases hdc : d = uns.getD m default
            · exact ihres.2.2 d hd (Or.inl (by
                rw [hdc]
                exact push_mem_self sat _ hv1 hv2))
            · exact ihres.2.2 d hd (Or.inr
                (mem_swapRemove_of_ne _ _ _ hbr (fun h => hdc h.symm) hm))
      · rw [if_neg hsatc]
        exact ih sat uns hinv

/-! ### Solver-level invariants -/

/-- Structural well-formedness of a whole solver state. -/
def FullInv (s : TwoSATSolver) : Prop :=
  s.assignment.length = s.n_var + 1 ∧
  StoreWF s.clauses (s.n_var + 1) ∧
  SatInv s.clauses (s.n_var + 1) s.satisfied s.unsatisfied

/-- Every clause of the store that the current assignment leaves unsatisfied
is in the unsatisfied list. -/
def InvA (s : TwoSATSolver) : Prop :=
  ∀ c ∈ s.clauses, is_satisfied s.assignment c = false → c ∈ s.unsatisfied

/-- Every clause of the store that the current assignment satisfies is in
both its variables' satisfied-lists, or (a stale copy possibility created by
the restart bug) in the unsatisfied list. -/
def InvB (s : TwoSATSolver) : Prop :=
  ∀ c ∈ s.clauses, is_satisfied s.assignment c = true →
    (c ∈ satGet s.satisfied c.vars.1 ∧ c ∈ satGet s.satisfied c.vars.2) ∨
      c ∈ s.unsatisfied

theorem is_satisfied_set_ne (ass : List Bool) (v : Nat) (b : Bool) (d : Clause)
    (h1 : d.vars.1 ≠ v) (h2 : d.vars.2 ≠ v) :
    is_satisfied (ass.set v b) d = is_satisfied ass d := by
  unfold is_satisfied
  rw [getD_set_ne _ _ _ _ _ (fun hh => h1 hh.symm),
    getD_set_ne _ _ _ _ _ (fun hh => h2 hh.symm)]

/-- What a successful flip_random_var does: only the assignment (at the
returned variable) and the RNG state change, and the returned variable is
one of the two variables of some clause of the unsatisfied list. -/
theorem flip_spec (s : TwoSATSolver) (v : Nat) (s1 : TwoSATSolver)
    (h : flip_random_var s = some (v, s1)) :
    s1.clauses = s.clauses ∧ s1.n_var = s.n_var ∧ s1.satisfied = s.satisfied ∧
    s1.unsatisfied = s.unsatisfied ∧
    (∃ b, s1.assignment = s.assignment.set v b) ∧
    (∃ c ∈ s.unsatisfied, v = c.vars.1 ∨ v = c.vars.2) := by
  unfold flip_random_var at h
  by_cases h0 : s.unsatisfied.length = 0
  · rw [if_pos h0] at h
    simp at h
  · rw [if_neg h0] at h
    by_cases hb : flip_var_of s < s.assignment.length
    · rw [if_pos hb] at h
      simp only [Option.some.injEq, Prod.mk.injEq] at h
      obtain ⟨hveq, hs1⟩ := h
      subst hveq
      subst hs1
      refine ⟨rfl, rfl, rfl, rfl, ⟨_, rfl⟩, ?_⟩
      refine ⟨s.unsatisfied.getD ((generate s.rng).2 % s.unsatisfied.length) default,
        getD_mem _ _ _ (Nat.mod_lt _ (by omega)), ?_⟩
      unfold flip_var_of
      split_ifs
      · exact Or.inr rfl
      · exact Or.inl rfl
    · rw [if_neg hb] at h
      simp at h

/-- flip_random_var cannot panic when the unsatisfied list is non-empty and
the state is well-formed: the modulus is over a positive length and the
flipped variable is in range of the assignment vector. -/
theorem flip_total (s : TwoSATSolver) (h0 : s.unsatisfied.length ≠ 0)
    (hwf : StoreWF s.clauses (s.n_var + 1)) (hlen : s.assignment.length = s.n_var + 1)
    (hmem : ∀ c ∈ s.unsatisfied, c ∈ s.clauses) :
    (flip_random_var s).isSome := by
  unfold flip_random_var
  rw [if_neg h0]
  have hb : flip_var_of s < s.assignment.length := by
    have hc : s.unsatisfied.getD ((generate s.rng).2 % s.unsatisfied.length) default
        ∈ s.unsatisfied := getD_mem _ _ _ (Nat.mod_lt _ (by omega))
    have hv := hwf _ (hmem _ hc)
    unfold flip_var_of
    split_ifs <;> omega
  rw [if_pos hb]
  simp

/-- A successful random_repartition step preserves the structural invariant
and the two semantic invariants InvA and InvB, and leaves the clause store
untouched. -/
theorem repart_spec (s : TwoSATSolver) (v : Nat) (s2 : TwoSATSolver)
    (h : random_repartition s = some (v, s2))
    (hfull : FullInv s) (hA : InvA s) (hB : InvB s) :
    s2.clauses = s.clauses ∧ s2.n_var = s.n_var ∧ FullInv s2 ∧ InvA s2 ∧ InvB s2 := by
  obtain ⟨hlen, hwf, hinv⟩ := hfull
  unfold random_repartition at h
  split at h
  · simp at h
  · rename_i v1 s1 heqf
    split at h
    · simp at h
    · rename_i s3 heqr
      simp only [Option.some.injEq, Prod.mk.injEq] at h
      obtain ⟨hv1, hs3⟩ := h
      subst hv1
      subst hs3
      obtain ⟨hcl, hnv, hsat_eq, huns_eq, ⟨b, hass⟩, ⟨c0, hc0mem, hc0v⟩⟩ :=
        flip_spec s v1 s1 heqf
      have hvN : v1 < s.n_var + 1 := by
        have := hwf c0 (hinv.uns_mem c0 hc0mem)
        rcases hc0v with hh | hh <;> omega
      have hinv1 : SatInv s.clauses (s.n_var + 1) s1.satisfied s1.unsatisfied := by
        rw [hsat_eq, huns_eq]
        exact hinv
      unfold repair_scans at heqr
      split at heqr
      · simp at heqr
      · rename_i sat1 uns1 heqs1
        simp only [Option.some.injEq] at heqr
        have hsc1 := scan1_spec s.clauses (s.n_var + 1) s1.assignment v1 hvN hwf
          (satGet s1.satisfied v1).length 0 s1.satisfied s1.unsatisfied sat1 uns1 heqs1
          hinv1 (by omega) (by
            intro j hj hj2
            exact absurd hj (by omega))
        obtain ⟨hinv1', hA1, hB1, hC1⟩ := hsc1
        have hsc2 := scan2_spec s.clauses (s.n_var + 1) s1.assignment hwf
          s1.unsatisfied.length sat1 uns1 hinv1'
        obtain ⟨hinv2', hA2, hB2⟩ := hsc2
        have hstat : ∀ d : Clause, d.vars.1 ≠ v1 → d.vars.2 ≠ v1 →
            is_satisfied s1.assignment d = is_satisfied s.assignment d := by
          intro d h1 h2
          rw [hass]
          exact is_satisfied_set_ne _ _ _ _ h1 h2
        subst heqr
        refine ⟨hcl, hnv, ⟨?_, ?_, ?_⟩, ?_, ?_⟩
        · show s1.assignment.length = s1.n_var + 1
          rw [hass, hnv]
          simp [hlen]
        · show StoreWF s1.clauses (s1.n_var + 1)
          rw [hcl, hnv]
          exact hwf
        · show SatInv s1.clauses (s1.n_var + 1)
            (scan2 s1.assignment s1.unsatisfied.length sat1 uns1).1
            (scan2 s1.assignment s1.unsatisfied.length sat1 uns1).2
          rw [hcl, hnv]
          exact hinv2'
        · intro d hd hunsat
          have hd' : d ∈ s.clauses := by
            have hx : d ∈ s1.clauses := hd
            rw [hcl] at hx
            exact hx
          have hunsat' : is_satisfied s1.assignment d = false := hunsat
          show d ∈ (scan2 s1.assignment s1.unsatisfied.length sat1 uns1).2
          apply hA2 d hunsat'
          apply hA1 d hunsat'
          by_cases hold : is_satisfied s.assignment d = true
          · rcases hB d hd' hold with ⟨hb1, hb2⟩ | hbu
            · have hvv : d.vars.1 = v1 ∨ d.vars.2 = v1 := by
                by_contra hcon
                push_neg at hcon
                have heq2 := hstat d hcon.1 hcon.2
                rw [hunsat', hold] at heq2
                simp at heq2
              right
              rcases hvv with hv1 | hv2
              · rw [hsat_eq, ← hv1]
                exact hb1
              · rw [hsat_eq, ← hv2]
                exact hb2
            · left
              rw [huns_eq]
              exact hbu
          · have hold' : is_satisfied s.assignment d = false := by
              cases hx : is_satisfied s.assignment d
              · rfl
              · exact absurd hx hold
            left
            rw [huns_eq]
            exact hA d hd' hold'
        · intro d hd hsat2
          have hd' : d ∈ s.clauses := by
            have hx : d ∈ s1.clauses := hd
            rw [hcl] at hx
            exact hx
          have hsat2' : is_satisfied s1.assignment d = true := hsat2
          show (d ∈ satGet (scan2 s1.assignment s1.unsatisfied.length sat1 uns1).1 d.vars.1 ∧
            d ∈ satGet (scan2 s1.assignment s1.unsatisfied.length sat1 uns1).1 d.vars.2) ∨
            d ∈ (scan2 s1.assignment s1.unsatisfied.length sat1 uns1).2
          apply hB2 d hsat2'
          by_cases hold : is_satisfied s.assignment d = true
          · rcases hB d hd' hold with ⟨hb1, hb2⟩ | hbu
            · left
              refine ⟨hB1 d hsat2' d.vars.1 ?_, hB1 d hsat2' d.vars.2 ?_⟩
              · rw [hsat_eq]
                exact hb1
              · rw [hsat_eq]
                exact hb2
            · right
              apply hC1 d
              rw [huns_eq]
              exact hbu
          · right
            apply hC1 d
            rw [huns_eq]
            apply hA d hd'
            cases hx : is_satisfied s.assignment d
            · rfl
            · exact absurd hx hold

/-- random_repartition cannot panic on a well-formed state with a non-empty
unsatisfied list whose store clauses all have two distinct variables. -/
theorem repart_total (s : TwoSATSolver) (h0 : s.unsatisfied.length ≠ 0)
    (hfull : FullInv s) (hdist : StoreDistinct s.clauses) :
    (random_repartition s).isSome := by
  obtain ⟨hlen, hwf, hinv⟩ := hfull
  have hft := flip_total s h0 hwf hlen hinv.uns_mem
  cases heqf : flip_random_var s with
  | none =>
    rw [heqf] at hft
    simp at hft
  | some p =>
    obtain ⟨v, s1⟩ := p
    obtain ⟨hcl, hnv, hsat_eq, huns_eq, ⟨b, hass⟩, ⟨c0, hc0mem, hc0v⟩⟩ :=
      flip_spec s v s1 heqf
    have hvN : v < s.n_var + 1 := by
      have := hwf c0 (hinv.uns_mem c0 hc0mem)
      rcases hc0v with hh | hh <;> omega
    have hinv1 : SatInv s.clauses (s.n_var + 1) s1.satisfied s1.unsatisfied := by
      rw [hsat_eq, huns_eq]
      exact hinv
    have hs1t := scan1_total s.clauses (s.n_var + 1) s1.assignment v hvN hwf hdist
      (satGet s1.satisfied v).length 0 s1.satisfied s1.unsatisfied hinv1 (by omega) (by
        intro j hj hj2
        exact absurd hj (by omega))
    cases heqs : scan1 s1.assignment v (satGet s1.satisfied v).length 0
        s1.satisfied s1.unsatisfied with
    | none =>
      rw [heqs] at hs1t
      simp at hs1t
    | some q =>
      obtain ⟨sat1, uns1⟩ := q
      unfold random_repartition
      simp only [heqf]
      have hrp : repair_scans s1 v = some { s1 with
          satisfied := (scan2 s1.assignment s1.unsatisfied.length sat1 uns1).1
          unsatisfied := (scan2 s1.assignment s1.unsatisfied.length sat1 uns1).2 } := by
        unfold repair_scans
        rw [heqs]
      simp [hrp]

theorem push_length (sat : List (List Clause)) (c : Clause) :
    (push_clause sat c).length = sat.length := by
  simp [push_clause]

/-- Pushing a store clause preserves the structural invariant. -/
theorem push_SatInv (CS : List Clause) (N : Nat) (sat : List (List Clause))
    (uns : List Clause) (c : Clause) (hinv : SatInv CS N sat uns) (hcCS : c ∈ CS)
    (hwf : StoreWF CS N) : SatInv CS N (push_clause sat c) uns := by
  have hv1 : c.vars.1 < sat.length := by
    have := hwf c hcCS
    have := hinv.sat_len
    omega
  have hv2 : c.vars.2 < sat.length := by
    have := hwf c hcCS
    have := hinv.sat_len
    omega
  refine ⟨?_, ?_, hinv.uns_mem, ?_⟩
  · rw [push_length]
    exact hinv.sat_len
  · intro u d hd
    rcases push_mem_inv sat c u d hv1 hv2 hd with h | ⟨hdc, hu⟩
    · exact hinv.sat_mem u d h
    · subst hdc
      exact ⟨hcCS, hu⟩
  · intro e heCS
    have h1 := mcount_push sat c e.vars.1 e hv1 hv2
    have h2 := mcount_push sat c e.vars.2 e hv1 hv2
    have hold := hinv.pairing e heCS
    by_cases hce : c = e
    · subst hce
      by_cases h12 : c.vars.1 = c.vars.2
      · rw [← h12] at h1 h2 ⊢ <;> omega
      · have hx2 : ¬ c.vars.2 = c.vars.1 := fun h => h12 h.symm
        rw [if_pos rfl, if_pos rfl, if_neg hx2] at h1
        rw [if_pos rfl, if_neg h12, if_pos rfl] at h2
        omega
    · simp only [if_neg hce] at h1 h2
      omega

theorem part_step_fields (st : TwoSATSolver) (c : Clause) :
    (part_step st c).assignment = st.assignment ∧ (part_step st c).clauses = st.clauses ∧
    (part_step st c).n_var = st.n_var ∧ (part_step st c).rng = st.rng := by
  unfold part_step
  split_ifs <;> exact ⟨rfl, rfl, rfl, rfl⟩

/-- Induction core for partition: folding part_step over a sublist of the
store places every clause of that sublist correctly (satisfied clauses into
both their satisfied-lists, unsatisfied ones into the unsatisfied list),
preserves the structural invariant, and never removes anything. -/
theorem part_go (CS : List Clause) (N : Nat) (A : List Bool)
    (hwf : StoreWF CS N) :
    ∀ (L : List Clause) (st : TwoSATSolver),
      st.assignment = A → st.clauses = CS → N = st.n_var + 1 →
      SatInv CS N st.satisfied st.unsatisfied →
      (∀ c ∈ L, c ∈ CS) →
      (L.foldl part_step st).assignment = A ∧
      (L.foldl part_step st).clauses = CS ∧
      (L.foldl part_step st).n_var = st.n_var ∧
      SatInv CS N (L.foldl part_step st).satisfied (L.foldl part_step st).unsatisfied ∧
      (∀ c ∈ L, (is_satisfied A c = true →
          c ∈ satGet (L.foldl part_step st).satisfied c.vars.1 ∧
          c ∈ satGet (L.foldl part_step st).satisfied c.vars.2) ∧
        (is_satisfied A c = false → c ∈ (L.foldl part_step st).unsatisfied)) ∧
      (∀ c : Clause, c ∈ satGet st.satisfied c.vars.1 ∧ c ∈ satGet st.satisfied c.vars.2 →
        c ∈ satGet (L.foldl part_step st).satisfied c.vars.1 ∧
        c ∈ satGet (L.foldl part_step st).satisfied c.vars.2) ∧
      (∀ c, c ∈ st.unsatisfied → c ∈ (L.foldl part_step st).unsatisfied) := by
  intro L
  induction L with
  | nil =>
    intro st h1 h2 h3 hinv hsub
    refine ⟨h1, h2, rfl, hinv, ?_, fun c h => h, fun c h => h⟩
    intro c hc
    simp at hc
  | cons c0 L ih =>
    intro st h1 h2 h3 hinv hsub
    have hc0CS : c0 ∈ CS := hsub c0 (by simp)
    have hv1 : c0.vars.1 < st.satisfied.length := by
      have := hwf c0 hc0CS
      have := hinv.sat_len
      omega
    have hv2 : c0.vars.2 < st.satisfied.length := by
      have := hwf c0 hc0CS
      have := hinv.sat_len
      omega
    simp only [List.foldl_cons]
    by_cases hsatc : is_satisfied st.assignment c0 = true
    · have hstep : part_step st c0 = { st with satisfied := push_clause st.satisfied c0 } := by
        unfold part_step
        rw [if_pos hsatc]
      rw [hstep]
      have hinv2 : SatInv CS N (push_clause st.satisfied c0) st.unsatisfied :=
        push_SatInv CS N st.satisfied st.unsatisfied c0 hinv hc0CS hwf
      have ihres := ih { st with satisfied := push_clause st.satisfied c0 } h1 h2 h3 hinv2
        (fun c hc => hsub c (by simp [hc]))
      obtain ⟨g1, g2, g3, g4, g5, g6, g7⟩ := ihres
      refine ⟨g1, g2, g3, g4, ?_, ?_, g7⟩
      · intro c hc
        rcases List.mem_cons.mp hc with hh | hh
        · subst hh
          constructor
          · intro _
            exact g6 c (push_mem_self st.satisfied c hv1 hv2)
          · intro hfalse
            rw [h1] at hsatc
            rw [hsatc] at hfalse
            simp at hfalse
        · exact g5 c hh
      · intro c hc
        exact g6 c ⟨push_mem_mono _ _ _ _ hv1 hv2 hc.1, push_mem_mono _ _ _ _ hv1 hv2 hc.2⟩
    · have hstep : part_step st c0 = { st with unsatisfied := st.unsatisfied ++ [c0] } := by
        unfold part_step
        rw [if_neg hsatc]
      rw [hstep]
      have hinv2 : SatInv CS N st.satisfied (st.unsatisfied ++ [c0]) := by
        refine ⟨hinv.sat_len, hinv.sat_mem, ?_, hinv.pairing⟩
        intro d hd
        rcases List.mem_append.mp hd with h | h
        · exact hinv.uns_mem d h
        · simp at h
          subst h
          exact hc0CS
      have ihres := ih { st with unsatisfied := st.unsatisfied ++ [c0] } h1 h2 h3 hinv2
        (fun c hc => hsub c (by simp [hc]))
      obtain ⟨g1, g2, g3, g4, g5, g6, g7⟩ := ihres
      refine ⟨g1, g2, g3, g4, ?_, g6, ?_⟩
      · intro c hc
        rcases List.mem_cons.mp hc with hh | hh
        · subst hh
          constructor
          · intro htrue
            rw [h1] at hsatc
            exact absurd htrue hsatc
          · intro _
            exact g7 c (List.mem_append.mpr (Or.inr (by simp)))
        · exact g5 c hh
      · intro c hc
        exact g7 c (List.mem_append.mpr (Or.inl hc))

theorem randomize_list_length : ∀ (l : List Bool) (rng : Nat),
    (randomize_list rng l).1.length = l.length := by
  intro l
  induction l with
  | nil =>
    intro rng
    simp [randomize_list]
  | cons a t ih =>
    intro rng
    simp [randomize_list, ih]

theorem randomize_fields (s : TwoSATSolver) :
    (randomize_assignment s).clauses = s.clauses ∧
    (randomize_assignment s).n_var = s.n_var ∧
    (randomize_assignment s).satisfied = s.satisfied ∧
    (randomize_assignment s).unsatisfied = s.unsatisfied ∧
    (randomize_assignment s).assignment.length = s.assignment.length :=
  ⟨rfl, rfl, rfl, rfl, randomize_list_length s.assignment s.rng⟩

theorem randomize_FullInv (s : TwoSATSolver) (hf : FullInv s) :
    FullInv (randomize_assignment s) := by
  obtain ⟨hlen, hwf, hinv⟩ := hf
  exact ⟨by rw [(randomize_fields s).2.2.2.2]; exact hlen, hwf, hinv⟩

/-- partition establishes the two semantic invariants InvA and InvB on top
of whatever the lists already contain, and preserves structural
well-formedness; the assignment, clause store and variable count are
untouched. -/
theorem partition_spec (s : TwoSATSolver) (hf : FullInv s) :
    (partition s).assignment = s.assignment ∧ (partition s).clauses = s.clauses ∧
    (partition s).n_var = s.n_var ∧
    FullInv (partition s) ∧ InvA (partition s) ∧ InvB (partition s) := by
  obtain ⟨hlen, hwf, hinv⟩ := hf
  have hp := part_go s.clauses (s.n_var + 1) s.assignment hwf s.clauses s rfl rfl rfl hinv
    (fun c h => h)
  obtain ⟨g1, g2, g3, g4, g5, g6, g7⟩ := hp
  refine ⟨g1, g2, g3, ⟨?_, ?_, ?_⟩, ?_, ?_⟩
  · unfold partition
    rw [g1, g3]
    exact hlen
  · unfold partition
    rw [g2, g3]
    exact hwf
  · unfold partition
    rw [g2, g3]
    exact g4
  · intro d hd hunsat
    unfold partition at hd hunsat ⊢
    rw [g2] at hd
    rw [g1] at hunsat
    exact (g5 d hd).2 hunsat
  · intro d hd hsat
    unfold partition at hd hsat ⊢
    rw [g2] at hd
    rw [g1] at hsat
    exact Or.inl ((g5 d hd).1 hsat)

/-- Invariant preservation along the random walk; on success the final
assignment satisfies every clause of the store. -/
theorem walk_spec : ∀ (fuel : Nat) (s : TwoSATSolver) (b : Bool) (s' : TwoSATSolver),
    FullInv s → InvA s → InvB s →
    try_solve_walk fuel s = some (b, s') →
    s'.clauses = s.clauses ∧ FullInv s' ∧
    (b = true → ∀ c ∈ s.clauses, is_satisfied s'.assignment c = true) := by
  intro fuel
  induction fuel with
  | zero =>
    intro s b s' hf hA hB hrun
    simp only [try_solve_walk, Option.some.injEq, Prod.mk.injEq] at hrun
    obtain ⟨hb, hs⟩ := hrun
    subst hs
    refine ⟨rfl, hf, ?_⟩
    intro hbt
    rw [hbt] at hb
    simp at hb
  | succ fuel ih =>
    intro s b s' hf hA hB hrun
    simp only [try_solve_walk] at hrun
    split at hrun
    · simp at hrun
    · rename_i v s1 heq
      have hrs := repart_spec s v s1 heq hf hA hB
      obtain ⟨hcl, hnv, hf1, hA1, hB1⟩ := hrs
      by_cases hz : s1.unsatisfied.length = 0
      · rw [if_pos hz] at hrun
        simp only [Option.some.injEq, Prod.mk.injEq] at hrun
        obtain ⟨hb, hs⟩ := hrun
        subst hs
        refine ⟨hcl, hf1, ?_⟩
        intro _ c hcmem
        have hnil : s1.unsatisfied = [] := List.length_eq_zero.mp hz
        cases hx : is_satisfied s1.assignment c
        · have := hA1 c (by rw [hcl]; exact hcmem) hx
          rw [hnil] at this
          simp at this
        · rfl
      · rw [if_neg hz] at hrun
        have hres := ih s1 b s' hf1 hA1 hB1 hrun
        refine ⟨hres.1.trans hcl, hres.2.1, ?_⟩
        intro hbt c hc
        exact hres.2.2 hbt c (by rw [hcl]; exact hc)

/-- Invariants through one whole restart; on success the final assignment
satisfies every clause of the store. -/
theorem try_solve_spec (s : TwoSATSolver) (b : Bool) (s' : TwoSATSolver)
    (hf : FullInv s) (h : try_solve s = some (b, s')) :
    s'.clauses = s.clauses ∧ FullInv s' ∧
    (b = true → ∀ c ∈ s.clauses, is_satisfied s'.assignment c = true) := by
  have hfr := randomize_FullInv s hf
  have hp := partition_spec (randomize_assignment s) hfr
  obtain ⟨g1, g2, g3, hpf, hpa, hpb⟩ := hp
  unfold try_solve at h
  by_cases hz : (partition (randomize_assignment s)).unsatisfied.length = 0
  · rw [if_pos hz] at h
    simp only [Option.some.injEq, Prod.mk.injEq] at h
    obtain ⟨hb, hs⟩ := h
    subst hs
    refine ⟨g2, hpf, ?_⟩
    intro _ c hcmem
    have hnil : (partition (randomize_assignment s)).unsatisfied = [] :=
      List.length_eq_zero.mp hz
    cases hx : is_satisfied (partition (randomize_assignment s)).assignment c
    · have := hpa c (by rw [g2]; exact hcmem) hx
      rw [hnil] at this
      simp at this
    · rfl
  · rw [if_neg hz] at h
    have hw := walk_spec (2 * (partition (randomize_assignment s)).n_var)
      (partition (randomize_assignment s)) b s' hpf hpa hpb h
    refine ⟨hw.1.trans g2, hw.2.1, ?_⟩
    intro hbt c hc
    exact hw.2.2 hbt c (by rw [g2]; exact hc)

/-- The walk never panics on a well-formed state with distinct-variable
clauses and a non-empty unsatisfied list. -/
theorem walk_total : ∀ (fuel : Nat) (s : TwoSATSolver),
    FullInv s → InvA s → InvB s → StoreDistinct s.clauses →
    s.unsatisfied.length ≠ 0 →
    (try_solve_walk fuel s).isSome := by
  intro fuel
  induction fuel with
  | zero =>
    intro s _ _ _ _ _
    simp [try_solve_walk]
  | succ fuel ih =>
    intro s hf hA hB hdist hne
    simp only [try_solve_walk]
    have hrt := repart_total s hne hf hdist
    cases heq : random_repartition s with
    | none =>
      rw [heq] at hrt
      simp at hrt
    | some p =>
      obtain ⟨v, s1⟩ := p
      have hrs := repart_spec s v s1 heq hf hA hB
      obtain ⟨hcl, hnv, hf1, hA1, hB1⟩ := hrs
      simp only [heq]
      by_cases hz : s1.unsatisfied.length = 0
      · rw [if_pos hz]
        simp
      · rw [if_neg hz]
        exact ih s1 hf1 hA1 hB1 (by rw [hcl]; exact hdist) hz

/-- One restart never panics on a well-formed state with distinct-variable
clauses. -/
theorem try_solve_total (s : TwoSATSolver) (hf : FullInv s)
    (hdist : StoreDistinct s.clauses) : (try_solve s).isSome := by
  have hfr := randomize_FullInv s hf
  have hp := partition_spec (randomize_assignment s) hfr
  obtain ⟨g1, g2, g3, hpf, hpa, hpb⟩ := hp
  unfold try_solve
  by_cases hz : (partition (randomize_assignment s)).unsatisfied.length = 0
  · rw [if_pos hz]
    simp
  · rw [if_neg hz]
    exact walk_total _ _ hpf hpa hpb (by rw [g2]; exact hdist) hz

/-- No false positives across the restart loop: a some-true verdict yields
an assignment satisfying every clause of the store. -/
theorem solve_loop_spec : ∀ (n : Nat) (s : TwoSATSolver),
    FullInv s → solve_loop n s = some true →
    ∃ a : List Bool, ∀ c ∈ s.clauses, is_satisfied a c = true := by
  intro n
  induction n with
  | zero =>
    intro s _ h
    simp [solve_loop] at h
  | succ n ih =>
    intro s hf h
    simp only [solve_loop] at h
    split at h
    · simp at h
    · rename_i s1 heq
      have hts := try_solve_spec s true s1 hf heq
      exact ⟨s1.assignment, hts.2.2 rfl⟩
    · rename_i s1 heq
      have hts := try_solve_spec s false s1 hf heq
      obtain ⟨a, ha⟩ := ih s1 hts.2.1 h
      refine ⟨a, ?_⟩
      intro c hc
      exact ha c (by rw [hts.1]; exact hc)

/-- The restart loop never panics on a well-formed distinct-variable store. -/
theorem solve_loop_total : ∀ (n : Nat) (s : TwoSATSolver),
    FullInv s → StoreDistinct s.clauses → (solve_loop n s).isSome := by
  intro n
  induction n with
  | zero =>
    intro s _ _
    simp [solve_loop]
  | succ n ih =>
    intro s hf hdist
    simp only [solve_loop]
    have htt := try_solve_total s hf hdist
    cases heq : try_solve s with
    | none =>
      rw [heq] at htt
      simp at htt
    | some p =>
      obtain ⟨b, s1⟩ := p
      have hts := try_solve_spec s b s1 hf heq
      cases b
      · exact ih s1 hts.2.1 (by rw [hts.1]; exact hdist)
      · simp

/-- The freshly constructed solver is well-formed when every clause of the
store has its variables below n_var + 1. -/
theorem new_FullInv (cl : Clauses)
    (hwf : StoreWF cl.clauses (cl.n_var + 1)) :
    FullInv (TwoSATSolver.new cl 42) := by
  refine ⟨?_, hwf, ?_, ?_, ?_, ?_⟩
  · show (List.replicate (cl.n_var + 1) true).length = cl.n_var + 1
    simp
  · show (List.replicate (cl.n_var + 1) ([] : List Clause)).length = cl.n_var + 1
    simp
  · intro u c hc
    have hc' : c ∈ satGet (List.replicate (cl.n_var + 1) ([] : List Clause)) u := hc
    rw [satGet_replicate] at hc'
    simp at hc'
  · intro c hc
    have hc' : c ∈ ([] : List Clause) := hc
    simp at hc'
  · intro c _
    show mcount c (satGet (List.replicate (cl.n_var + 1) ([] : List Clause)) c.vars.1)
      = mcount c (satGet (List.replicate (cl.n_var + 1) ([] : List Clause)) c.vars.2)
    rw [satGet_replicate, satGet_replicate]

/-! ### Agreement between the plain run and the trace-instrumented run -/

theorem walk_trace_agree : ∀ (fuel : Nat) (s : TwoSATSolver),
    try_solve_walk fuel s = (walk_trace fuel s).map (fun r => (r.2.1, r.2.2)) := by
  intro fuel
  induction fuel with
  | zero =>
    intro s
    simp [try_solve_walk, walk_trace]
  | succ fuel ih =>
    intro s
    simp only [try_solve_walk, walk_trace]
    cases heq : random_repartition s with
    | none => simp
    | some p =>
      obtain ⟨v, s1⟩ := p
      show (if s1.unsatisfied.length = 0 then some (true, s1) else try_solve_walk fuel s1) =
        Option.map (fun r => (r.2.1, r.2.2))
          (if s1.unsatisfied.length = 0 then some ([v], true, s1)
            else Option.map (fun r => (v :: r.1, r.2)) (walk_trace fuel s1))
      by_cases hz : s1.unsatisfied.length = 0
      · simp [hz]
      · rw [if_neg hz, if_neg hz, ih s1]
        cases hwt : walk_trace fuel s1 with
        | none => simp
        | some r => simp

theorem try_solve_trace_agree (s : TwoSATSolver) :
    try_solve s = (try_solve_trace s).map (fun r => (r.2.1, r.2.2)) := by
  unfold try_solve try_solve_trace
  by_cases hz : (partition (randomize_assignment s)).unsatisfied.length = 0
  · simp [hz]
  · rw [if_neg hz, if_neg hz]
    exact walk_trace_agree _ _

theorem solve_loop_trace_agree : ∀ (n : Nat) (s : TwoSATSolver),
    solve_loop n s = (solve_loop_trace n s).map (fun r => r.2) := by
  intro n
  induction n with
  | zero =>
    intro s
    simp [solve_loop, solve_loop_trace]
  | succ n ih =>
    intro s
    simp only [solve_loop, solve_loop_trace]
    rw [try_solve_trace_agree s]
    cases htt : try_solve_trace s with
    | none => simp
    | some r =>
      obtain ⟨vs, b, s1⟩ := r
      cases b
      · show solve_loop n s1 = Option.map (fun r => r.2)
          (Option.map (fun r => (vs :: r.1, r.2)) (solve_loop_trace n s1))
        rw [ih s1]
        cases hst : solve_loop_trace n s1 with
        | none => simp
        | some q => simp
      · show some true = Option.map (fun r => r.2) (some ([vs], true))
        simp

/-! ### Consistency and the no-op property of the repair pass -/

/-- The partition is consistent with the current assignment: every entry of
every satisfied-list is satisfied, every entry of the unsatisfied list is
unsatisfied. -/
abbrev Consistent (s : TwoSATSolver) : Prop :=
  (∀ l ∈ s.satisfied, ∀ c ∈ l, is_satisfied s.assignment c = true) ∧
  (∀ c ∈ s.unsatisfied, is_satisfied s.assignment c = false)

theorem scan1_id (ass : List Bool) (v : Nat) : ∀ (fuel i : Nat)
    (sat : List (List Clause)) (uns : List Clause),
    (∀ c ∈ satGet sat v, is_satisfied ass c = true) →
    i + fuel = (satGet sat v).length →
    scan1 ass v fuel i sat uns = some (sat, uns) := by
  intro fuel
  induction fuel with
  | zero =>
    intro i sat uns hall hlen
    simp [scan1]
  | succ fuel ih =>
    intro i sat uns hall hlen
    simp only [scan1]
    have hilen : i < (satGet sat v).length := by omega
    rw [if_pos hilen]
    have hsatc := hall _ (getD_mem _ i default hilen)
    rw [if_pos hsatc]
    exact ih (i + 1) sat uns hall (by omega)

theorem scan2_id (ass : List Bool) : ∀ (m : Nat) (sat : List (List Clause))
    (uns : List Clause),
    (∀ c ∈ uns, is_satisfied ass c = false) →
    scan2 ass m sat uns = (sat, uns) := by
  intro m
  induction m with
  | zero =>
    intro sat uns hall
    simp [scan2]
  | succ m ih =>
    intro sat uns hall
    simp only [scan2]
    by_cases hbr : uns.length ≤ m
    · rw [if_pos hbr]
    · rw [if_neg hbr]
      push_neg at hbr
      have hc := hall _ (getD_mem _ m default hbr)
      rw [if_neg (by rw [hc]; simp)]
      exact ih sat uns hall

/-! ### Concrete states exhibiting the restart-reuse bug

is_satisfiable builds ONE solver and calls try_solve on it repeatedly;
try_solve never clears the satisfied-lists or the unsatisfied list, so the
second restart's partition runs on top of the first restart's leftovers.
restart1 is the first restart on the unsatisfiable test instance (seed 42);
second_partition_state is the state just after the second restart's
partition inside is_satisfiable unsatCl 2 (solve_loop feeds restart1's
final state to the second try_solve, whose first step is exactly
partition after randomize_assignment). -/
def restart1 : Option (Bool × TwoSATSolver) :=
  try_solve (TwoSATSolver.new unsatCl 42)

def second_partition_state : TwoSATSolver :=
  partition (randomize_assignment (restart1.getD (false, TwoSATSolver.new unsatCl 42)).2)

/-- The claimed partition invariant for one clause: it appears exactly once,
either as a copy in the satisfied-list of each of its two variables and not
in the unsatisfied list, or once in the unsatisfied list and in no
satisfied-list. -/
abbrev in_exactly_one (s : TwoSATSolver) (c : Clause) : Prop :=
  (mcount c (satGet s.satisfied c.vars.1) = 1 ∧ mcount c (satGet s.satisfied c.vars.2) = 1 ∧
    mcount c s.unsatisfied = 0) ∨
  (mcount c (satGet s.satisfied c.vars.1) = 0 ∧ mcount c (satGet s.satisfied c.vars.2) = 0 ∧
    mcount c s.unsatisfied = 1)

/-! ### The claims -/

/-- C1 (code_bug evidence): the partition invariant fails on a reachable
state.  On the unsatisfiable four-clause test instance with seed 42, the
first try_solve returns false, so within is_satisfiable unsatCl 2 a second
restart runs; after the second restart's partition the clause (x1 ∨ x2) has
two copies in each of its satisfied-lists (not exactly one place), and the
clause (¬x1 ∨ x2), although satisfied by the current assignment, still has
a stale copy in the unsatisfied list, so is_solved (emptiness of the
unsatisfied list) cannot agree with a brute-force re-evaluation at such
states.  The claim says every clause appears in exactly one place after
every partition inside is_satisfiable; the code violates it because
try_solve never clears the lists between restarts. -/
theorem claim_c1_partition_invariant_fails :
    restart1.map (fun p => p.1) = some false ∧
    ¬ in_exactly_one second_partition_state ⟨(true, true), (1, 2)⟩ ∧
    is_satisfied second_partition_state.assignment ⟨(false, true), (1, 2)⟩ = true ∧
    mcount ⟨(false, true), (1, 2)⟩ second_partition_state.unsatisfied = 1 := by
  decide

/-- C2 (code_bug evidence): the Satisfaction Partition is NOT created fresh
at every restart.  On the unsatisfiable test instance with seed 42 the
first try_solve returns false and leaves one clause in the unsatisfied list
and three entries in each of the two variables' satisfied-lists; solve_loop
hands exactly this state to the second try_solve, so the second restart
does not begin with empty lists as claimed. -/
theorem claim_c2_restart_state_not_fresh :
    restart1.map (fun p => (p.1, p.2.unsatisfied.length, (satGet p.2.satisfied 1).length,
      (satGet p.2.satisfied 2).length)) = some (false, 1, 3, 3) := by
  decide

/-- C3 (confirmed): no false positives.  For every clause set whose
variables lie in 1..=n_var and every restart budget, if is_satisfiable
returns true then some boolean assignment satisfies every clause; and the
four-clause instance (x1∨x2), (x1∨¬x2), (¬x1∨x2), (¬x1∨¬x2) is
unsatisfiable, so is_satisfiable returns false (never true, never a panic)
for every restart budget. -/
theorem claim_c3_no_false_positives :
    (∀ (cl : Clauses) (n_iter : Nat),
      (∀ c ∈ cl.clauses, 1 ≤ c.vars.1 ∧ c.vars.1 ≤ cl.n_var ∧
        1 ≤ c.vars.2 ∧ c.vars.2 ≤ cl.n_var) →
      cl.is_satisfiable n_iter = some true →
      ∃ a : List Bool, ∀ c ∈ cl.clauses, is_satisfied a c = true) ∧
    (∀ n_iter : Nat, unsatCl.is_satisfiable n_iter = some false) := by
  constructor
  · intro cl n hwf hrun
    have hful := new_FullInv cl (fun c hc =>
      ⟨by have := hwf c hc; omega, by have := hwf c hc; omega⟩)
    obtain ⟨a, ha⟩ := solve_loop_spec n (TwoSATSolver.new cl 42) hful hrun
    exact ⟨a, fun c hc => ha c hc⟩
  · intro n
    have hful := new_FullInv unsatCl (by decide)
    have htot := solve_loop_total n (TwoSATSolver.new unsatCl 42) hful (by decide)
    cases hb : unsatCl.is_satisfiable n with
    | none =>
      unfold Clauses.is_satisfiable at hb
      rw [hb] at htot
      simp at htot
    | some b =>
      cases b
      · rfl
      · exfalso
        have hsome : solve_loop n (TwoSATSolver.new unsatCl 42) = some true := by
          unfold Clauses.is_satisfiable at hb
          exact hb
        obtain ⟨a, ha⟩ := solve_loop_spec n _ hful hsome
        have h1 := ha ⟨(true, true), (1, 2)⟩ (by simp [TwoSATSolver.new, unsatCl])
        have h2 := ha ⟨(true, false), (1, 2)⟩ (by simp [TwoSATSolver.new, unsatCl])
        have h3 := ha ⟨(false, true), (1, 2)⟩ (by simp [TwoSATSolver.new, unsatCl])
        have h4 := ha ⟨(false, false), (1, 2)⟩ (by simp [TwoSATSolver.new, unsatCl])
        unfold is_satisfied at h1 h2 h3 h4
        dsimp only at h1 h2 h3 h4
        cases hA : a.getD 1 false <;> cases hB : a.getD 2 false <;>
          rw [hA, hB] at h1 h2 h3 h4 <;> simp at h1 h2 h3 h4

/-- Witness for C3 at concrete inputs: the satisfiable test instance is
solved by seed 42 within one restart, giving a satisfying assignment, and
the unsatisfiable instance yields some false at budget 3. -/
theorem claim_c3_witness :
    (∃ a : List Bool, ∀ c ∈ satCl.clauses, is_satisfied a c = true) ∧
    unsatCl.is_satisfiable 3 = some false :=
  ⟨claim_c3_no_false_positives.1 satCl 1 (by decide) (by decide),
    claim_c3_no_false_positives.2 3⟩

/-- C4 counterexample: the claim says is_satisfiable returns false for
every budget on the single clause (x1 ∨ ¬x1); in fact the code returns
true already at budget 1 (the clause is a tautology, so the first
partition finds nothing unsatisfied). -/
theorem claim_c4_counterexample : tautCl.is_satisfiable 1 = some true := by
  decide

/-- C4 (amended): a single clause whose two literals reference the same
variable with contradictory polarity is a tautology, hence satisfiable:
every assignment satisfies it, and is_satisfiable returns true for every
restart budget of at least 1. -/
theorem claim_c4_tautology_satisfiable (n : Nat) (hn : 1 ≤ n) :
    tautCl.is_satisfiable n = some true ∧
    ∀ a : List Bool, ∀ c ∈ tautCl.clauses, is_satisfied a c = true := by
  constructor
  · cases n with
    | zero => omega
    | succ k => rfl
  · intro a c hc
    simp [tautCl] at hc
    subst hc
    show ((a.getD 1 false == true) || (a.getD 1 false == false)) = true
    cases hx : a.getD 1 false <;> rfl

/-- Witness for C4's amended claim at the concrete budget 2. -/
theorem claim_c4_witness :
    tautCl.is_satisfiable 2 = some true ∧
    ∀ a : List Bool, ∀ c ∈ tautCl.clauses, is_satisfied a c = true :=
  claim_c4_tautology_satisfiable 2 (by decide)

/-- C5 (confirmed): the literal regression case of test1: the satisfiable
instance (x1∨x2), (x1∨¬x2), (¬x1∨x2) with the solver's fixed seed 42 is
reported satisfiable within a budget of 100 restarts. -/
theorem claim_c5_seed42_regression : satCl.is_satisfiable 100 = some true := by
  decide

/-- C6 counterexample: the claim says is_satisfiable never panics for any
well-formed clause set (variables in 1..=n).  The instance with the two
same-variable clauses (x1 ∨ x1) and (¬x1 ∨ ¬x1) is well-formed in that
sense, yet the run panics (modelled none): the first repair scan removes
two copies from the flipped variable's satisfied-list in one iteration and
then indexes past the end of the list. -/
theorem claim_c6_counterexample : panicCl.is_satisfiable 1 = none := by
  decide

/-- C6 (amended): for clause sets whose clauses each have two DISTINCT
variables in 1..=n_var, is_satisfiable never panics: it terminates with
some boolean for every restart budget (the modulus is never taken on an
empty list and remove_clause_at's unwrap always finds the clause). -/
theorem claim_c6_no_panic (cl : Clauses) (n_iter : Nat)
    (hwf : ∀ c ∈ cl.clauses, 1 ≤ c.vars.1 ∧ c.vars.1 ≤ cl.n_var ∧
      1 ≤ c.vars.2 ∧ c.vars.2 ≤ cl.n_var)
    (hdist : ∀ c ∈ cl.clauses, c.vars.1 ≠ c.vars.2) :
    (cl.is_satisfiable n_iter).isSome := by
  apply solve_loop_total
  · exact new_FullInv cl (fun c hc =>
      ⟨by have := hwf c hc; omega, by have := hwf c hc; omega⟩)
  · exact hdist

/-- Witness for C6's amended claim on the distinct-variable test instance. -/
theorem claim_c6_witness : (unsatCl.is_satisfiable 2).isSome = true :=
  claim_c6_no_panic unsatCl 2 (by decide) (by decide)

/-- C7 (confirmed): an instance with an empty clause list (in particular
any n_var = 0 instance, which can have no well-formed clause) is trivially
satisfiable: the first restart's partition leaves the unsatisfied list
empty and try_solve returns true immediately, for every budget of at
least 1. -/
theorem claim_c7_trivial_sat (cl : Clauses) (h : cl.clauses = []) (n : Nat)
    (hn : 1 ≤ n) : cl.is_satisfiable n = some true := by
  cases n with
  | zero => omega
  | succ k =>
    unfold Clauses.is_satisfiable
    simp only [solve_loop]
    have hcl : (TwoSATSolver.new cl 42).clauses = [] := h
    have hz : (partition (randomize_assignment (TwoSATSolver.new cl 42))).unsatisfied.length
        = 0 := by
      unfold partition
      have hcl2 : (randomize_assignment (TwoSATSolver.new cl 42)).clauses = [] := hcl
      rw [hcl2]
      simp only [List.foldl_nil]
      rfl
    have hts : try_solve (TwoSATSolver.new cl 42)
        = some (true, partition (randomize_assignment (TwoSATSolver.new cl 42))) := by
      unfold try_solve
      rw [if_pos hz]
    rw [hts]

/-- Witness for C7 at the concrete empty instance with n_var = 0. -/
theorem claim_c7_witness : (Clauses.mk [] 0).is_satisfiable 1 = some true :=
  claim_c7_trivial_sat ⟨[], 0⟩ rfl 1 (by decide)

/-- C8 (confirmed): idempotence of the repair pass without a flip.  If the
partition is consistent with the current assignment (every satisfied-list
entry satisfied, every unsatisfied entry unsatisfied), then running the two
repair scans of random_repartition for ANY variable v returns the state
unchanged: flipping is the only mutation trigger. -/
theorem claim_c8_repair_noop (s : TwoSATSolver) (hcons : Consistent s) (v : Nat) :
    repair_scans s v = some s := by
  obtain ⟨hsat, huns⟩ := hcons
  unfold repair_scans
  have h1 : scan1 s.assignment v (satGet s.satisfied v).length 0 s.satisfied s.unsatisfied
      = some (s.satisfied, s.unsatisfied) := by
    apply scan1_id
    · intro c hc
      by_cases hv : v < s.satisfied.length
      · exact hsat (satGet s.satisfied v) (getD_mem _ v [] hv) c hc
      · rw [satGet_out _ _ (by omega)] at hc
        simp at hc
    · omega
  rw [h1]
  show some { s with
      satisfied := (scan2 s.assignment s.unsatisfied.length s.satisfied s.unsatisfied).1
      unsatisfied := (scan2 s.assignment s.unsatisfied.length s.satisfied s.unsatisfied).2 }
    = some s
  rw [scan2_id s.assignment s.unsatisfied.length s.satisfied s.unsatisfied huns]

/-- A concrete consistent state: one satisfied clause (x1 ∨ x2) indexed by
both its variables under the all-true assignment. -/
def consistent_state : TwoSATSolver :=
  { clauses := [⟨(true, true), (1, 2)⟩]
    n_var := 2
    satisfied := [[], [⟨(true, true), (1, 2)⟩], [⟨(true, true), (1, 2)⟩]]
    unsatisfied := []
    assignment := [true, true, true]
    rng := 42 }

/-- Witness for C8 at a concrete consistent state and variable 1. -/
theorem claim_c8_witness :
    Consistent consistent_state ∧ repair_scans consistent_state 1 = some consistent_state :=
  ⟨by decide, claim_c8_repair_noop consistent_state (by decide) 1⟩

/-- C9 (confirmed): determinism.  The solver has no hidden input: the whole
computation, including each restart's sequence of flipped variables, is the
deterministic function run_trace of the clause list (in order) and the
restart budget alone, with the seed fixed at 42; the verdict of
is_satisfiable is exactly the verdict of that instrumented run, so two runs
with identical seed and clause order produce identical restart/flip
sequences and identical verdicts. -/
theorem claim_c9_determinism (cl : Clauses) (n_iter : Nat) :
    cl.is_satisfiable n_iter = (run_trace cl n_iter).map (fun r => r.2) :=
  solve_loop_trace_agree n_iter (TwoSATSolver.new cl 42)

/-- C10 (confirmed): zero-budget edge case.  With n_iter = 0 the restart
loop body never runs and is_satisfiable returns false for every clause set,
including trivially satisfiable ones. -/
theorem claim_c10_zero_budget (cl : Clauses) : cl.is_satisfiable 0 = some false :=
  rfl

end TwoSat
